import Mathlib

/-!
# B+Tree leaf insertion and lookup (`B+Tree.go`)

A shallow embedding of the Go program's tree code.  The embedding of `Andrew.go` follows it
in the namespace `Andrew`; the theorems on both come after all definitions.

* `int64` keys are `Int`: the code only compares keys, it never does arithmetic on them.
* Go's `int` is the 64-bit `int`: the one sum of the tree code, `M + 1` in `NewBtree` and
  `NewLeafNode`, wraps around (`wrap64`), and the largest length `make` can allocate is a
  parameter of both functions.
* An `interface{}` value is `Option V`: `none` is Go's `nil`, `some v` a non-nil value.
* A slice is a `List`; every index expression, slice expression and indexed store of the
  source is a fallible operation, and a function that can panic returns `Option`, `none`
  being the run-time panic.  Capacity is not modelled: it only decides whether `append`
  reallocates, which no function here can observe on a single node.
* `Nodes []*BPNode` are the owning edges of the tree and are embedded by value.  `Next *BPNode`
  is a non-owning link that none of the embedded functions dereferences; it is an optional
  handle.
* The `sync.RWMutex` of `Btree` is not part of the sequential embedding.
-/

namespace BPlusTree

/-! ## Data model -/

/-- An `interface{}` value: `none` is `nil`. -/
abbrev Iface (V : Type) := Option V

/-- The record stored in a leaf: `type BPItem struct { Key int64; Val interface{} }`. -/
structure BPItem (V : Type) where
  Key : Int
  Val : Iface V
deriving DecidableEq

/-- The zero value `BPItem{}`. -/
def BPItem.zero {V : Type} : BPItem V := ⟨0, none⟩

/-- A tree node: `type BPNode struct { MaxKey int64; Nodes []*BPNode; Items []BPItem; Next *BPNode }`. -/
structure BPNode (V : Type) where
  MaxKey : Int
  Nodes : List (BPNode V)
  Items : List (BPItem V)
  Next : Option Nat

/-- The tree: `type Btree struct { mutex sync.RWMutex; root *BPNode; M int; halfM int }`. -/
structure Btree (V : Type) where
  root : BPNode V
  M : Int
  halfM : Int

variable {V : Type}

/-! ## Slice primitives -/

/-- The slice expression `s[i:]`; it panics when `i` exceeds the length. -/
def sliceFrom {α : Type} (s : List α) (i : Nat) : Option (List α) :=
  if i ≤ s.length then some (s.drop i) else none

/-- The indexed store `s[i] = x`; it panics when `i` is out of range. -/
def store {α : Type} (s : List α) (i : Nat) (x : α) : Option (List α) :=
  if i < s.length then some (s.set i x) else none

/-- The builtin `copy(dst, src)`: the first `min(len(dst), len(src))` elements of `dst`
are replaced by those of `src`.  The result is the new content of `dst`. -/
def copy {α : Type} (dst src : List α) : List α :=
  let n := min dst.length src.length
  src.take n ++ dst.drop n

/-! ## `BPNode.setValue` -/

/-- The scanning loop of `setValue` (`for i := 0; i < num; i++`), entered at index `i`.
The last branch is the fall-through after the loop, which returns with the node untouched. -/
def setValue.loop (node : BPNode V) (key : Int) (item : BPItem V) (num : Nat) (i : Nat) :
    Option (BPNode V) :=
  if i < num then
    match node.Items[i]? with
    | none => none
    | some cur =>
      if cur.Key > key then
        -- node.Items = append(node.Items, BPItem{})
        let a := node.Items ++ [BPItem.zero]
        -- copy(node.Items[i+1:], node.Items[i:]) on the one backing array
        match sliceFrom a (i + 1), sliceFrom a i with
        | some dst, some src =>
          let b := a.take (i + 1) ++ copy dst src
          -- node.Items[i] = item
          match store b i item with
          | some c => some { node with Items := c }
          | none => none
        | _, _ => none
      else if cur.Key = key then
        match store node.Items i item with
        | some c => some { node with Items := c }
        | none => none
      else setValue.loop node key item num (i + 1)
  else some node
termination_by num - i

/-- The method `func (node *BPNode) setValue(key int64, value interface{})`; the result is
the node after the call. -/
def setValue (node : BPNode V) (key : Int) (value : Iface V) : Option (BPNode V) :=
  let item : BPItem V := ⟨key, value⟩
  let num := node.Items.length
  if num < 1 then
    some { node with Items := node.Items ++ [item], MaxKey := key }
  else
    match node.Items[0]? with
    | none => none
    | some first =>
      if key < first.Key then
        some { node with Items := [item] ++ node.Items }
      else
        match node.Items[num - 1]? with
        | none => none
        | some last =>
          if key > last.Key then
            some { node with Items := node.Items ++ [item], MaxKey := key }
          else setValue.loop node key item num 0

/-! ## `NewLeafNode`, `NewBtree` -/

/-- The value of an `int` expression on a 64-bit platform: two's complement wrap-around. -/
def wrap64 (x : Int) : Int := (x + 2 ^ 63) % 2 ^ 64 - 2 ^ 63

/-- The values of a 64-bit `int`. -/
abbrev InInt64 (x : Int) : Prop := -2 ^ 63 ≤ x ∧ x < 2 ^ 63

/-- The function `NewLeafNode(width int)`: `make([]BPItem, width+1)` panics when the length
`width+1`, computed with wrap-around, is negative or is more than `make` can allocate; the
slice is then cut back to length zero.  The largest length `make` can allocate depends on
the platform and on the memory at hand; it is the parameter `maxLen`. -/
def NewLeafNode (maxLen : Nat) (width : Int) : Option (BPNode V) :=
  let len := wrap64 (width + 1)
  if len < 0 ∨ (maxLen : Int) < len then none
  else some { MaxKey := 0, Nodes := [], Items := [], Next := none }

/-- The function `NewBtree(M int)` on a 64-bit platform: `M + 1` wraps around, `/` is Go's
truncating division, and the call returns no tree when `make` in `NewLeafNode` panics. -/
def NewBtree (maxLen : Nat) (M : Int) : Option (Btree V) :=
  let M := if M < 3 then 3 else M
  let halfM := Int.tdiv (wrap64 (M + 1)) 2
  match NewLeafNode maxLen M with
  | none => none
  | some root => some { root := root, M := M, halfM := halfM }

/-! ## `Btree.Get`, `Btree.Set` -/

/-- The descent loop of `Get`, `for i := 0; i < len(node.Nodes); i++`, in the state
`(node, i)`.  On a descent the body sets `i = 0` and the post statement `i++` then runs, so
the child is scanned from index `0 + 1`.  The result is `node` when the loop exits. -/
def Get.descend (key : Int) (node : BPNode V) (i : Nat) : Option (BPNode V) :=
  if i < node.Nodes.length then
    match h : node.Nodes[i]? with
    | none => none
    | some child =>
      if key ≤ child.MaxKey then Get.descend key child (0 + 1)
      else Get.descend key node (i + 1)
  else some node
termination_by (sizeOf node, node.Nodes.length - i)
decreasing_by
  · apply Prod.Lex.left
    have hm : child ∈ node.Nodes := List.getElem?_mem h
    have := List.sizeOf_lt_of_mem hm
    cases node
    simp at this ⊢
    omega
  · apply Prod.Lex.right
    omega

/-- The leaf scan of `Get`, `for i := 0; i < len(node.Items); i++`, entered at index `i`. -/
def Get.search (key : Int) (items : List (BPItem V)) (i : Nat) : Option (Iface V) :=
  if i < items.length then
    match items[i]? with
    | none => none
    | some it =>
      if it.Key = key then some it.Val
      else Get.search key items (i + 1)
  else some none
termination_by items.length - i

/-- The method `func (t *Btree) Get(key int64) interface{}`. -/
def Get (t : Btree V) (key : Int) : Option (Iface V) :=
  match Get.descend key t.root 0 with
  | none => none
  | some node =>
    if node.Nodes.length > 0 then some none
    else Get.search key node.Items 0

/-- The method `func (t *Btree) Set(key int64, value interface{})`: its body locks and
unlocks the mutex and does nothing else. -/
def Set (t : Btree V) (_key : Int) (_value : Iface V) : Btree V := t

/-! ## Specification-side definitions -/

/-- Strictly ascending by key. -/
abbrev Ascending (l : List (BPItem V)) : Prop := l.Pairwise (fun a b => a.Key < b.Key)

/-- The reference insert-or-overwrite on an ordered list: the records with a key below `k`
in their order, then the record `(k, v)`, then the records with a key above `k` in their
order. -/
def insertOrOverwrite (l : List (BPItem V)) (k : Int) (v : Iface V) : List (BPItem V) :=
  l.filter (fun x => decide (x.Key < k)) ++ [⟨k, v⟩] ++ l.filter (fun x => decide (k < x.Key))

/-- List-level reading of the scanning loop of `setValue`: the records from the first one
whose key is at least `key` on, with `item` put in front of it (key larger) or in its place
(key equal); `none` when no record has such a key. -/
def scanFrom (key : Int) (item : BPItem V) : List (BPItem V) → Option (List (BPItem V))
  | [] => none
  | x :: xs =>
    if x.Key > key then some (item :: x :: xs)
    else if x.Key = key then some (item :: xs)
    else (scanFrom key item xs).map (x :: ·)

mutual
/-- The nodes of the subtree of a node in preorder, each paired with its depth, the node
itself being at depth `d`. -/
def BPNode.walk (d : Nat) : BPNode V → List (Nat × BPNode V)
  | ⟨mk, nodes, items, next⟩ => (d, ⟨mk, nodes, items, next⟩) :: walkAll (d + 1) nodes
/-- The preorder walk of a list of siblings at depth `d`. -/
def walkAll (d : Nat) : List (BPNode V) → List (Nat × BPNode V)
  | [] => []
  | c :: cs => c.walk d ++ walkAll d cs
end

/-- The records held by the leaves (the nodes without children) of a subtree, left to
right. -/
def BPNode.records (n : BPNode V) : List (BPItem V) :=
  ((n.walk 0).filter (fun p => p.2.Nodes.isEmpty)).flatMap (fun p => p.2.Items)

/-- Well-formedness of a tree: every leaf's records are strictly ascending by key, every
node's `MaxKey` is the largest key of its subtree, the children of every node are in
ascending key order, and all leaves are at the same depth. -/
def WellFormed (t : Btree V) : Prop :=
  (∀ p ∈ t.root.walk 0, p.2.Nodes.isEmpty = true → Ascending p.2.Items) ∧
  (∀ p ∈ t.root.walk 0, p.2.records.isEmpty = false →
    (∃ x ∈ p.2.records, x.Key = p.2.MaxKey) ∧ ∀ x ∈ p.2.records, x.Key ≤ p.2.MaxKey) ∧
  (∀ p ∈ t.root.walk 0, p.2.Nodes.Pairwise
    (fun a b => ∀ x ∈ a.records, ∀ y ∈ b.records, x.Key < y.Key)) ∧
  (∀ p ∈ t.root.walk 0, ∀ q ∈ t.root.walk 0,
    p.2.Nodes.isEmpty = true → q.2.Nodes.isEmpty = true → p.1 = q.1)

instance WellFormed.decidable (t : Btree V) [DecidableEq V] : Decidable (WellFormed t) := by
  unfold WellFormed; infer_instance

/-! ## Concrete trees and leaves -/

/-- The leaf holding keys 1 and 2. -/
def leaf12 : BPNode Nat := ⟨2, [], [⟨1, some 10⟩, ⟨2, some 20⟩], some 1⟩
/-- The leaf holding keys 3 and 4. -/
def leaf34 : BPNode Nat := ⟨4, [], [⟨3, some 30⟩, ⟨4, some 40⟩], some 2⟩
/-- The leaf holding keys 5 and 6. -/
def leaf56 : BPNode Nat := ⟨6, [], [⟨5, some 50⟩, ⟨6, some 60⟩], some 3⟩
/-- The leaf holding keys 7 and 8, the last of the leaf chain. -/
def leaf78 : BPNode Nat := ⟨8, [], [⟨7, some 70⟩, ⟨8, some 80⟩], none⟩
/-- The index node over `leaf12` and `leaf34`. -/
def inner14 : BPNode Nat := ⟨4, [leaf12, leaf34], [], none⟩
/-- The index node over `leaf56` and `leaf78`. -/
def inner58 : BPNode Nat := ⟨8, [leaf56, leaf78], [], none⟩
/-- The root of a tree of height three over the keys 1 to 8. -/
def root18 : BPNode Nat := ⟨8, [inner14, inner58], [], none⟩
/-- The tree of height three over the keys 1 to 8, with `M = 3`. -/
def tree18 : Btree Nat := ⟨root18, 3, 2⟩

/-- The insertions of the scenario: keys 1 to 10 in order, key `k` with the value `k`. -/
def scenario : List (Int × Iface Nat) :=
  [(1, some 1), (2, some 2), (3, some 3), (4, some 4), (5, some 5), (6, some 6),
    (7, some 7), (8, some 8), (9, some 9), (10, some 10)]

/-- Calls `Set` for each pair of a list in order. -/
def SetAll (t : Btree V) (kvs : List (Int × Iface V)) : Btree V :=
  kvs.foldl (fun t kv => Set t kv.1 kv.2) t

/-- The descent loop of `Get` run for at most `fuel` iterations of its condition: the outer
`none` is the loop still running when the fuel is spent, `some none` a panic, and
`some (some node)` the loop exiting at `node`.  The body is that of `Get.descend`. -/
def Get.descendFuel (key : Int) : Nat → BPNode V → Nat → Option (Option (BPNode V))
  | 0, _, _ => none
  | fuel + 1, node, i =>
    if i < node.Nodes.length then
      match node.Nodes[i]? with
      | none => some none
      | some child =>
        if key ≤ child.MaxKey then Get.descendFuel key fuel child (0 + 1)
        else Get.descendFuel key fuel node (i + 1)
    else some (some node)

/-- Well-formedness of a tree of height at most two: the root is a leaf with strictly
ascending records, or the root has children and each of them is a leaf with records,
strictly ascending, whose `MaxKey` is the key of its last record, the leaves being in
ascending key order. -/
def WellFormedLow (t : Btree V) : Prop :=
  (t.root.Nodes.isEmpty = true ∧ Ascending t.root.Items) ∨
  (t.root.Nodes.isEmpty = false ∧
    (∀ c ∈ t.root.Nodes, c.Nodes.isEmpty = true ∧ c.Items.isEmpty = false ∧
      Ascending c.Items ∧ c.Items.getLast?.map (·.Key) = some c.MaxKey) ∧
    t.root.Nodes.Pairwise (fun a b => ∀ x ∈ a.Items, ∀ y ∈ b.Items, x.Key < y.Key))

instance WellFormedLow.decidable (t : Btree V) : Decidable (WellFormedLow t) := by
  unfold WellFormedLow; infer_instance

/-- The tree of height two over the keys 1 to 4, with `M = 3`. -/
def tree14 : Btree Nat := ⟨inner14, 3, 2⟩

end BPlusTree

/-!
# Convex hull by Andrew's monotone chain (`Andrew.go`)

* Go's `int` values (coordinates, indices, loop counters) are `Int`; `cross` wraps its
  arithmetic to 64 bits.
* A point `[]int` is a `List Int` and `trees [][]int` a list of points.  Every index
  expression is checked as the run time checks it, and a run-time panic is the `error` of
  `Except Panic`.
* `used := make([]bool, n)` is never appended to nor resliced, so its length stays `n`; it
  is a function on `Fin n`, indexed through `getUsed` and `setUsed`.
* `sort.Slice` belongs to the Go library.  `outerTrees` takes it as a parameter and the
  theorems assume of it what the library promises: a permutation of its input.
-/

namespace Andrew

/-- The slices of `outerTrees`, to say which one a panic is about. -/
inductive Slice where
  | trees
  | point
  | hull
  | used
deriving DecidableEq

/-- A run-time panic: `index s i len` is "index out of range [i] with length len" on the
slice `s`, and `bounds s k len` is "slice bounds out of range [:k]". -/
inductive Panic where
  | index (s : Slice) (i : Int) (len : Nat)
  | bounds (s : Slice) (k : Int) (len : Nat)
deriving DecidableEq

/-- The value of an `int` expression on a 64-bit platform: two's complement wrap-around. -/
def wrapInt (x : Int) : Int := (x + 2 ^ 63) % 2 ^ 64 - 2 ^ 63

/-- The index expression `l[i]` on the slice named `s`. -/
def idx {α : Type} (s : Slice) (l : List α) (i : Int) : Except Panic α :=
  if 0 ≤ i then
    match l[i.toNat]? with
    | some x => .ok x
    | none => .error (.index s i l.length)
  else .error (.index s i l.length)

/-- The slice expression `l[:k]`.  The code only writes `l[:len(l)-1]`, which stays within
the capacity, so the check against the length is the check the run time makes. -/
def sliceTo {α : Type} (s : Slice) (l : List α) (k : Int) : Except Panic (List α) :=
  if 0 ≤ k ∧ k ≤ l.length then .ok (l.take k.toNat) else .error (.bounds s k l.length)

/-- The index expression `used[k]`. -/
def getUsed {n : Nat} (used : Fin n → Bool) (k : Int) : Except Panic Bool :=
  if h : 0 ≤ k ∧ k < n then .ok (used ⟨k.toNat, by omega⟩)
  else .error (.index .used k n)

/-- The indexed store `used[k] = b`. -/
def setUsed {n : Nat} (used : Fin n → Bool) (k : Int) (b : Bool) :
    Except Panic (Fin n → Bool) :=
  if h : 0 ≤ k ∧ k < n then .ok (Function.update used ⟨k.toNat, by omega⟩ b)
  else .error (.index .used k n)

/-- The function `cross(p, q, r []int) int`:
`(q[0]-p[0])*(r[1]-p[1]) - (q[1]-p[1])*(r[0]-p[0])`, operands read left to right. -/
def cross (p q r : List Int) : Except Panic Int := do
  let q0 ← idx .point q 0
  let p0 ← idx .point p 0
  let r1 ← idx .point r 1
  let p1 ← idx .point p 1
  let q1 ← idx .point q 1
  let r0 ← idx .point r 0
  pure (wrapInt (wrapInt (wrapInt (q0 - p0) * wrapInt (r1 - p1))
    - wrapInt (wrapInt (q1 - p1) * wrapInt (r0 - p0))))

/-- The comparison closure handed to `sort.Slice`, on the two points it reads:
`a[0] < b[0] || a[0] == b[0] && a[1] < b[1]`. -/
def less (a b : List Int) : Except Panic Bool := do
  let a0 ← idx .point a 0
  let b0 ← idx .point b 0
  if a0 < b0 then pure true
  else if a0 = b0 then do
    let a1 ← idx .point a 1
    let b1 ← idx .point b 1
    pure (decide (a1 < b1))
  else pure false

/-- The expression `cross(trees[hull[len(hull)-2]], trees[hull[len(hull)-1]], trees[i])` of
both inner loops. -/
def crossAtTop (trees : List (List Int)) (hull : List Int) (i : Int) : Except Panic Int := do
  let a ← idx .hull hull ((hull.length : Int) - 2)
  let p ← idx .trees trees a
  let b ← idx .hull hull ((hull.length : Int) - 1)
  let q ← idx .trees trees b
  let r ← idx .trees trees i
  cross p q r

/-- The inner loop of the first pass:
`for len(hull) > 1 && cross(...) < 0 { used[len(hull)-1] = false; hull = hull[:len(hull)-1] }`. -/
def pop1 {n : Nat} (trees : List (List Int)) (i : Int) (used : Fin n → Bool)
    (hull : List Int) : Except Panic ((Fin n → Bool) × List Int) :=
  if hull.length > 1 then
    match crossAtTop trees hull i with
    | .error e => .error e
    | .ok c =>
      if c < 0 then
        match setUsed used ((hull.length : Int) - 1) false with
        | .error e => .error e
        | .ok used1 =>
          match h : sliceTo .hull hull ((hull.length : Int) - 1) with
          | .error e => .error e
          | .ok hull1 => pop1 trees i used1 hull1
      else .ok (used, hull)
  else .ok (used, hull)
termination_by hull.length
decreasing_by
  all_goals
    unfold sliceTo at h
    split at h
    · cases h
      rw [List.length_take]
      omega
    · cases h

/-- The first pass, `for i := 1; i < n; i++`, entered at `i`. -/
def pass1 {n : Nat} (trees : List (List Int)) (i : Int) (used : Fin n → Bool)
    (hull : List Int) : Except Panic ((Fin n → Bool) × List Int) :=
  if i < n then
    match pop1 trees i used hull with
    | .error e => .error e
    | .ok (used1, hull1) =>
      match setUsed used1 i true with
      | .error e => .error e
      | .ok used2 => pass1 trees (i + 1) used2 (hull1 ++ [i])
  else .ok (used, hull)
termination_by ((n : Int) - i).toNat
decreasing_by omega

/-- The inner loop of the second pass:
`for len(hull) > m && cross(...) < 0 { used[hull[len(hull)-1]] = false; hull = hull[:len(hull)-1] }`. -/
def pop2 {n : Nat} (trees : List (List Int)) (m : Nat) (i : Int) (used : Fin n → Bool)
    (hull : List Int) : Except Panic ((Fin n → Bool) × List Int) :=
  if hull.length > m then
    match crossAtTop trees hull i with
    | .error e => .error e
    | .ok c =>
      if c < 0 then
        match idx .hull hull ((hull.length : Int) - 1) with
        | .error e => .error e
        | .ok top =>
          match setUsed used top false with
          | .error e => .error e
          | .ok used1 =>
            match h : sliceTo .hull hull ((hull.length : Int) - 1) with
            | .error e => .error e
            | .ok hull1 => pop2 trees m i used1 hull1
      else .ok (used, hull)
  else .ok (used, hull)
termination_by hull.length
decreasing_by
  all_goals
    unfold sliceTo at h
    split at h
    · cases h
      rw [List.length_take]
      omega
    · cases h

/-- The second pass, `for i := n - 1; i >= 0; i++`, entered at `i`; the result is `hull`
when the loop exits.  The counter goes up, and the loop goes on only after `used[i]` has
been read within bounds. -/
def pass2 {n : Nat} (trees : List (List Int)) (m : Nat) (i : Int) (used : Fin n → Bool)
    (hull : List Int) : Except Panic (List Int) :=
  if i ≥ 0 then
    match h : getUsed used i with
    | .error e => .error e
    | .ok u =>
      if !u then
        match pop2 trees m i used hull with
        | .error e => .error e
        | .ok (used1, hull1) =>
          match idx .hull hull1 ((hull1.length : Int) - 1) with
          | .error e => .error e
          | .ok top =>
            match setUsed used1 top true with
            | .error e => .error e
            | .ok used2 => pass2 trees m (i + 1) used2 (hull1 ++ [i])
      else pass2 trees m (i + 1) used hull
  else .ok hull
termination_by ((n : Int) - i).toNat
decreasing_by
  all_goals
    unfold getUsed at h
    split at h
    · omega
    · cases h

/-- The function `outerTrees(trees [][]int) [][]int`, with `sort.Slice` as the parameter
`sortSlice`, which receives the comparison closure and the slice. -/
def outerTrees
    (sortSlice : (List Int → List Int → Except Panic Bool) → List (List Int) →
      Except Panic (List (List Int)))
    (trees : List (List Int)) : Except Panic (List (List Int)) :=
  let n := trees.length
  match sortSlice less trees with
  | .error e => .error e
  | .ok trees =>
    let hull : List Int := [0]
    let used : Fin n → Bool := fun _ => false
    match pass1 trees 1 used hull with
    | .error e => .error e
    | .ok (used, hull) =>
      let m := hull.length
      match pass2 trees m ((n : Int) - 1) used hull with
      | .error e => .error e
      | .ok hull =>
        match sliceTo .hull hull ((hull.length : Int) - 1) with
        | .error e => .error e
        | .ok hull => hull.mapM (fun index => idx .trees trees index)

/-- Insertion of a point into a sorted list, by a comparison that can panic. -/
def insertBy (lt : List Int → List Int → Except Panic Bool) (x : List Int) :
    List (List Int) → Except Panic (List (List Int))
  | [] => .ok [x]
  | y :: ys =>
    match lt x y with
    | .error e => .error e
    | .ok true => .ok (x :: y :: ys)
    | .ok false =>
      match insertBy lt x ys with
      | .error e => .error e
      | .ok r => .ok (y :: r)

/-- Insertion sort, a sorting algorithm to stand for `sort.Slice` on concrete inputs. -/
def insertionSort (lt : List Int → List Int → Except Panic Bool) :
    List (List Int) → Except Panic (List (List Int))
  | [] => .ok []
  | x :: xs =>
    match insertionSort lt xs with
    | .error e => .error e
    | .ok s => insertBy lt x s

end Andrew

namespace BPlusTree

variable {V : Type}

/-! ## Lemmas on the slice primitives and the loops -/

theorem shift_insert_aux {α : Type} (p q : List α) (c z x : α) :
    sliceFrom (p ++ c :: q ++ [z]) (p.length + 1) = some (q ++ [z]) ∧
    sliceFrom (p ++ c :: q ++ [z]) p.length = some (c :: q ++ [z]) ∧
    store ((p ++ c :: q ++ [z]).take (p.length + 1) ++ copy (q ++ [z]) (c :: q ++ [z]))
      p.length x = some (p ++ x :: c :: q) := by
  refine ⟨?_, ?_, ?_⟩
  · have : (p ++ c :: q ++ [z]) = (p ++ [c]) ++ (q ++ [z]) := by simp
    rw [this]
    simp only [sliceFrom]
    rw [if_pos (by simp)]
    have h : p.length + 1 = (p ++ [c]).length := by simp
    rw [h, List.drop_left]
  · have : (p ++ c :: q ++ [z]) = p ++ (c :: q ++ [z]) := by simp
    rw [this]
    simp only [sliceFrom]
    rw [if_pos (by simp), List.drop_left]
  · have h1 : (p ++ c :: q ++ [z]).take (p.length + 1) = p ++ [c] := by
      have : (p ++ c :: q ++ [z]) = (p ++ [c]) ++ (q ++ [z]) := by simp
      rw [this]
      have h : p.length + 1 = (p ++ [c]).length := by simp
      rw [h, List.take_left]
    have h2 : copy (q ++ [z]) (c :: q ++ [z]) = c :: q := by
      simp only [copy]
      have hm : min (q ++ [z]).length (c :: q ++ [z]).length = (c :: q).length := by
        simp
      rw [hm]
      have : (c :: q ++ [z]) = (c :: q) ++ [z] := by simp
      rw [this, List.take_left, List.drop_eq_nil_of_le (by simp), List.append_nil]
    rw [h1, h2]
    simp only [store]
    rw [if_pos (by simp)]
    congr 1
    have : p ++ [c] ++ c :: q = p ++ (c :: (c :: q)) := by simp
    rw [this, List.set_append_right _ _ (le_refl _)]
    simp


theorem loop_eq_scan (node : BPNode V) (key : Int) (item : BPItem V) (p q : List (BPItem V))
    (h : node.Items = p ++ q) :
    setValue.loop node key item node.Items.length p.length =
      some (match scanFrom key item q with
            | some r => { node with Items := p ++ r }
            | none => node) := by
  induction q generalizing p with
  | nil =>
    rw [setValue.loop]
    simp [h, scanFrom]
  | cons c q ih =>
    rw [setValue.loop]
    have hlt : p.length < node.Items.length := by simp [h]
    have hget : node.Items[p.length]? = some c := by
      rw [h, List.getElem?_append_right (le_refl _)]; simp
    rw [if_pos hlt, hget]
    simp only [scanFrom]
    by_cases h1 : c.Key > key
    · rw [if_pos h1, if_pos h1]
      obtain ⟨e1, e2, e3⟩ := shift_insert_aux p q c BPItem.zero item
      have ha : node.Items ++ [BPItem.zero] = p ++ c :: q ++ [BPItem.zero] := by simp [h]
      simp only [ha, e1, e2, e3]
    · rw [if_neg h1, if_neg h1]
      by_cases h2 : c.Key = key
      · rw [if_pos h2, if_pos h2]
        have : store node.Items p.length item = some (p ++ item :: q) := by
          simp only [store]
          rw [if_pos hlt, h, List.set_append_right _ _ (le_refl _)]
          simp
        simp only [this]
      · rw [if_neg h2, if_neg h2]
        have := ih (p ++ [c]) (by simp [h])
        simp only [List.length_append, List.length_singleton] at this
        rw [this]
        cases scanFrom key item q <;> simp



theorem setValue_cases (node : BPNode V) (key : Int) (value : Iface V) :
    setValue node key value = some (
      match node.Items.head?, node.Items.getLast? with
      | some first, some last =>
        if key < first.Key then { node with Items := ⟨key, value⟩ :: node.Items }
        else if key > last.Key then
          { node with Items := node.Items ++ [⟨key, value⟩], MaxKey := key }
        else
          match scanFrom key ⟨key, value⟩ node.Items with
          | some r => { node with Items := r }
          | none => node
      | _, _ => { node with Items := node.Items ++ [⟨key, value⟩], MaxKey := key }) := by
  unfold setValue
  cases hl : node.Items with
  | nil => simp
  | cons x xs =>
    have h0 : (x :: xs)[0]? = some x := by simp
    have hlast : (x :: xs)[(x :: xs).length - 1]? = some ((x :: xs).getLast (by simp)) := by
      rw [← List.getLast?_eq_getElem?, List.getLast?_eq_getLast]
    have hlast2 : (x :: xs).getLast? = some ((x :: xs).getLast (by simp)) :=
      List.getLast?_eq_getLast _ _
    have hhead : (x :: xs).head? = some x := rfl
    simp only [hhead, hlast2]
    rw [if_neg (by simp)]
    simp only [h0, hlast]
    by_cases h1 : key < x.Key
    · simp [h1]
    · rw [if_neg h1, if_neg h1]
      by_cases h2 : key > ((x :: xs).getLast (by simp)).Key
      · rw [if_pos h2, if_pos h2]
      · rw [if_neg h2, if_neg h2]
        have := loop_eq_scan node key ⟨key, value⟩ [] (x :: xs) (by simp [hl])
        simp only [hl, List.length_nil, List.nil_append] at this
        exact this


theorem scanFrom_none (key : Int) (item : BPItem V) (l : List (BPItem V))
    (h : scanFrom key item l = none) : ∀ x ∈ l, x.Key < key := by
  induction l with
  | nil => simp
  | cons c q ih =>
    simp only [scanFrom] at h
    by_cases h1 : c.Key > key
    · simp [h1] at h
    · by_cases h2 : c.Key = key
      · simp [h1, h2] at h
      · simp only [if_neg h1, if_neg h2, Option.map_eq_none'] at h
        intro x hx
        rcases List.mem_cons.mp hx with rfl | hx
        · omega
        · exact ih h x hx

theorem insertOrOverwrite_of_all_gt (l : List (BPItem V)) (k : Int) (v : Iface V)
    (h : ∀ x ∈ l, k < x.Key) : insertOrOverwrite l k v = ⟨k, v⟩ :: l := by
  have h1 : l.filter (fun x => decide (x.Key < k)) = [] := by
    rw [List.filter_eq_nil_iff]
    intro x hx
    have := h x hx
    simp; omega
  have h2 : l.filter (fun x => decide (k < x.Key)) = l := by
    rw [List.filter_eq_self]
    intro x hx
    simpa using h x hx
  simp [insertOrOverwrite, h1, h2]

theorem insertOrOverwrite_of_all_lt (l : List (BPItem V)) (k : Int) (v : Iface V)
    (h : ∀ x ∈ l, x.Key < k) : insertOrOverwrite l k v = l ++ [⟨k, v⟩] := by
  have h1 : l.filter (fun x => decide (k < x.Key)) = [] := by
    rw [List.filter_eq_nil_iff]
    intro x hx
    have := h x hx
    simp; omega
  have h2 : l.filter (fun x => decide (x.Key < k)) = l := by
    rw [List.filter_eq_self]
    intro x hx
    simpa using h x hx
  simp [insertOrOverwrite, h1, h2]

theorem insertOrOverwrite_cons_lt (c : BPItem V) (l : List (BPItem V)) (k : Int) (v : Iface V)
    (h : c.Key < k) : insertOrOverwrite (c :: l) k v = c :: insertOrOverwrite l k v := by
  have h2 : ¬ k < c.Key := by omega
  simp [insertOrOverwrite, List.filter_cons, h, h2]

theorem scanFrom_sorted (key : Int) (value : Iface V) (l r : List (BPItem V))
    (hs : Ascending l) (h : scanFrom key ⟨key, value⟩ l = some r) :
    r = insertOrOverwrite l key value := by
  induction l generalizing r with
  | nil => simp [scanFrom] at h
  | cons c q ih =>
    have hq : Ascending q := (List.pairwise_cons.mp hs).2
    have hc : ∀ x ∈ q, c.Key < x.Key := (List.pairwise_cons.mp hs).1
    simp only [scanFrom] at h
    by_cases h1 : c.Key > key
    · rw [if_pos h1] at h
      rw [insertOrOverwrite_of_all_gt]
      · exact (Option.some.inj h).symm
      · intro x hx
        rcases List.mem_cons.mp hx with rfl | hx
        · exact h1
        · have := hc x hx; omega
    · rw [if_neg h1] at h
      by_cases h2 : c.Key = key
      · rw [if_pos h2] at h
        have hgt : ∀ x ∈ q, key < x.Key := fun x hx => h2 ▸ hc x hx
        have e := insertOrOverwrite_of_all_gt q key value hgt
        have h3 : ¬ c.Key < key := by omega
        have h4 : ¬ key < c.Key := by omega
        have : insertOrOverwrite (c :: q) key value = insertOrOverwrite q key value := by
          simp [insertOrOverwrite, List.filter_cons, h3, h4]
        rw [this, e]
        exact (Option.some.inj h).symm
      · rw [if_neg h2] at h
        have hlt : c.Key < key := by omega
        rw [insertOrOverwrite_cons_lt c q key value hlt]
        cases hsc : scanFrom key ⟨key, value⟩ q with
        | none => simp [hsc] at h
        | some r2 =>
          simp [hsc] at h
          rw [← h, ih r2 hq hsc]

theorem ascending_insertOrOverwrite (l : List (BPItem V)) (k : Int) (v : Iface V)
    (hs : Ascending l) : Ascending (insertOrOverwrite l k v) := by
  unfold insertOrOverwrite Ascending
  rw [List.pairwise_append, List.pairwise_append]
  refine ⟨⟨hs.filter _, by simp, ?_⟩, hs.filter _, ?_⟩
  · intro a ha b hb
    simp at ha hb
    rw [hb]; exact ha.2
  · intro a ha b hb
    simp at ha hb
    rcases ha with ha | ha
    · have := hb.2; omega
    · rw [ha]; exact hb.2

theorem ascending_le_getLast (l : List (BPItem V)) (hne : l ≠ []) (hs : Ascending l) :
    ∀ x ∈ l, x.Key ≤ (l.getLast hne).Key := by
  intro x hx
  have hl : l = l.dropLast ++ [l.getLast hne] := (List.dropLast_append_getLast hne).symm
  rw [hl] at hx
  rcases List.mem_append.mp hx with h | h
  · have hs2 : Ascending (l.dropLast ++ [l.getLast hne]) := by rw [← hl]; exact hs
    have := (List.pairwise_append.mp hs2).2.2 x h (l.getLast hne) (by simp)
    omega
  · simp at h; rw [h]

/-- On a leaf with ascending records `setValue` returns, the records are the reference
insert-or-overwrite, and `MaxKey` becomes `key` exactly when every old key is below it. -/
theorem setValue_sorted (node : BPNode V) (key : Int) (value : Iface V)
    (hs : Ascending node.Items) :
    setValue node key value = some
      { node with
        Items := insertOrOverwrite node.Items key value,
        MaxKey := if ∀ x ∈ node.Items, x.Key < key then key else node.MaxKey } := by
  rw [setValue_cases]
  cases hl : node.Items with
  | nil => simp [insertOrOverwrite]
  | cons x xs =>
    rw [hl] at hs
    have hlast2 : (x :: xs).getLast? = some ((x :: xs).getLast (by simp)) :=
      List.getLast?_eq_getLast _ _
    have hhead : (x :: xs).head? = some x := rfl
    have hx : ∀ y ∈ xs, x.Key < y.Key := (List.pairwise_cons.mp hs).1
    have hle := ascending_le_getLast (x :: xs) (by simp) hs
    have hmem : (x :: xs).getLast (by simp) ∈ x :: xs := List.getLast_mem _
    simp only [hhead, hlast2]
    by_cases h1 : key < x.Key
    · have hall : ¬ ∀ y ∈ x :: xs, y.Key < key := by
        intro h; have := h x (by simp); omega
      rw [if_pos h1, if_neg hall, insertOrOverwrite_of_all_gt]
      intro y hy
      rcases List.mem_cons.mp hy with rfl | hy
      · exact h1
      · have := hx y hy; omega
    · rw [if_neg h1]
      by_cases h2 : key > ((x :: xs).getLast (by simp)).Key
      · have hall : ∀ y ∈ x :: xs, y.Key < key := by
          intro y hy; have := hle y hy; omega
        rw [if_pos h2, if_pos hall, insertOrOverwrite_of_all_lt _ _ _ hall]
      · have hall : ¬ ∀ y ∈ x :: xs, y.Key < key := by
          intro h; have := h _ hmem; omega
        rw [if_neg h2, if_neg hall]
        cases hsc : scanFrom key ⟨key, value⟩ (x :: xs) with
        | none => exact absurd (scanFrom_none _ _ _ hsc) hall
        | some r => simp only [scanFrom_sorted key value _ r hs hsc]


theorem descend_exit (key : Int) (node : BPNode V) (i : Nat) (h : node.Nodes.length ≤ i) :
    Get.descend key node i = some node := by
  rw [Get.descend, if_neg (by omega)]

theorem descend_down (key : Int) (node child : BPNode V) (i : Nat)
    (hc : node.Nodes[i]? = some child) (hk : key ≤ child.MaxKey) :
    Get.descend key node i = Get.descend key child 1 := by
  have hi : i < node.Nodes.length := by
    rcases Nat.lt_or_ge i node.Nodes.length with h | h
    · exact h
    · rw [List.getElem?_eq_none h] at hc; cases hc
  rw [Get.descend, if_pos hi]
  split
  · rename_i h; rw [hc] at h; cases h
  · rename_i c h
    rw [hc] at h; cases h
    rw [if_pos hk]

theorem descend_skip (key : Int) (node child : BPNode V) (i : Nat)
    (hc : node.Nodes[i]? = some child) (hk : ¬ key ≤ child.MaxKey) :
    Get.descend key node i = Get.descend key node (i + 1) := by
  have hi : i < node.Nodes.length := by
    rcases Nat.lt_or_ge i node.Nodes.length with h | h
    · exact h
    · rw [List.getElem?_eq_none h] at hc; cases hc
  rw [Get.descend, if_pos hi]
  split
  · rename_i h; rw [hc] at h; cases h
  · rename_i c h
    rw [hc] at h; cases h
    rw [if_neg hk]

theorem search_eq_find (key : Int) (p q : List (BPItem V)) :
    Get.search key (p ++ q) p.length =
      some (match q.find? (fun it => decide (it.Key = key)) with
            | some it => it.Val
            | none => none) := by
  induction q generalizing p with
  | nil => rw [Get.search]; simp
  | cons c q ih =>
    rw [Get.search, if_pos (by simp)]
    have hget : (p ++ c :: q)[p.length]? = some c := by
      rw [List.getElem?_append_right (le_refl _)]; simp
    simp only [hget]
    by_cases h : c.Key = key
    · simp [h]
    · rw [if_neg h]
      have := ih (p ++ [c])
      simp only [List.append_assoc, List.singleton_append, List.length_append,
        List.length_singleton] at this
      rw [this]
      simp [List.find?_cons, h]

theorem scanFrom_getLast (key : Int) (item : BPItem V) (l r : List (BPItem V))
    (hi : item.Key = key) (h : scanFrom key item l = some r) :
    r ≠ [] ∧ r.getLast?.map (·.Key) = l.getLast?.map (·.Key) := by
  induction l generalizing r with
  | nil => simp [scanFrom] at h
  | cons c q ih =>
    simp only [scanFrom] at h
    by_cases h1 : c.Key > key
    · rw [if_pos h1] at h
      cases h
      exact ⟨by simp, by rw [List.getLast?_cons_cons]⟩
    · rw [if_neg h1] at h
      by_cases h2 : c.Key = key
      · rw [if_pos h2] at h
        cases h
        refine ⟨by simp, ?_⟩
        cases q with
        | nil => simp [hi, h2]
        | cons d q2 => rw [List.getLast?_cons_cons, List.getLast?_cons_cons]
      · rw [if_neg h2] at h
        cases hsc : scanFrom key item q with
        | none => simp [hsc] at h
        | some r2 =>
          simp [hsc] at h
          obtain ⟨hne, hl⟩ := ih r2 hsc
          subst h
          refine ⟨by simp, ?_⟩
          cases r2 with
          | nil => exact absurd rfl hne
          | cons e r3 =>
            cases q with
            | nil => simp [scanFrom] at hsc
            | cons d q2 => rw [List.getLast?_cons_cons, List.getLast?_cons_cons]; exact hl

theorem insertOrOverwrite_of_mem (l : List (BPItem V)) (k : Int) (v : Iface V)
    (hs : Ascending l) (hk : ∃ x ∈ l, x.Key = k) :
    insertOrOverwrite l k v = l.map (fun x => if x.Key = k then ⟨k, v⟩ else x) := by
  induction l with
  | nil => simp at hk
  | cons c q ih =>
    have hq : Ascending q := (List.pairwise_cons.mp hs).2
    have hc : ∀ x ∈ q, c.Key < x.Key := (List.pairwise_cons.mp hs).1
    obtain ⟨x, hx, hxk⟩ := hk
    rcases Int.lt_trichotomy c.Key k with h | h | h
    · have hxq : x ∈ q := by
        rcases List.mem_cons.mp hx with rfl | hx
        · omega
        · exact hx
      rw [insertOrOverwrite_cons_lt c q k v h, ih hq ⟨x, hxq, hxk⟩]
      have : c.Key ≠ k := by omega
      simp [this]
    · have hgt : ∀ y ∈ q, k < y.Key := fun y hy => h ▸ hc y hy
      have h3 : ¬ c.Key < k := by omega
      have h4 : ¬ k < c.Key := by omega
      have e1 : insertOrOverwrite (c :: q) k v = insertOrOverwrite q k v := by
        simp [insertOrOverwrite, List.filter_cons, h3, h4]
      have e2 : q.map (fun x => if x.Key = k then (⟨k, v⟩ : BPItem V) else x) = q := by
        have : ∀ y ∈ q, (fun x => if x.Key = k then (⟨k, v⟩ : BPItem V) else x) y = id y := by
          intro y hy
          have := hgt y hy
          have hne : y.Key ≠ k := by omega
          simp [hne]
        rw [List.map_congr_left this, List.map_id]
      rw [e1, insertOrOverwrite_of_all_gt q k v hgt, List.map_cons, e2, if_pos h]
    · exfalso
      rcases List.mem_cons.mp hx with rfl | hx
      · omega
      · have := hc x hx; omega

theorem length_insertOrOverwrite (l : List (BPItem V)) (k : Int) (v : Iface V)
    (hs : Ascending l) :
    (insertOrOverwrite l k v).length =
      if ∃ x ∈ l, x.Key = k then l.length else l.length + 1 := by
  by_cases hk : ∃ x ∈ l, x.Key = k
  · rw [if_pos hk, insertOrOverwrite_of_mem l k v hs hk, List.length_map]
  · rw [if_neg hk]
    have hlen : ∀ q : List (BPItem V), (∀ x ∈ q, x.Key ≠ k) →
        (insertOrOverwrite q k v).length = q.length + 1 := by
      intro q
      induction q with
      | nil => intro _; simp [insertOrOverwrite]
      | cons c q ih =>
        intro hq
        have hc : c.Key ≠ k := hq c (by simp)
        have ih2 := ih (fun x hx => hq x (by simp [hx]))
        simp only [insertOrOverwrite, List.length_append, List.length_singleton,
          List.length_cons, List.filter_cons] at ih2 ⊢
        by_cases h1 : c.Key < k
        · have h2 : ¬ k < c.Key := by omega
          simp only [h1, h2, decide_True, decide_False, if_true, List.length_cons]
          simp only [Bool.false_eq_true, if_false]
          omega
        · have h2 : k < c.Key := by omega
          simp only [h1, h2, decide_True, decide_False, if_true, List.length_cons]
          simp only [Bool.false_eq_true, if_false]
          omega
    exact hlen l (fun x hx he => hk ⟨x, hx, he⟩)

theorem wrap64_succ (m : Int) (h0 : 0 ≤ m) (h : m < 2 ^ 63) :
    wrap64 (m + 1) = if m + 1 < 2 ^ 63 then m + 1 else -2 ^ 63 := by
  unfold wrap64
  norm_num at h ⊢
  split <;> omega

theorem NewLeafNode_some (maxLen : Nat) (width : Int) (r : BPNode V)
    (h : NewLeafNode maxLen width = some r) :
    r = { MaxKey := 0, Nodes := [], Items := [], Next := none } := by
  unfold NewLeafNode at h
  by_cases hc : wrap64 (width + 1) < 0 ∨ (maxLen : Int) < wrap64 (width + 1)
  · simp only [if_pos hc] at h
    cases h
  · simp only [if_neg hc] at h
    exact (Option.some.inj h).symm

theorem NewBtree_root (maxLen : Nat) (M : Int) (t : Btree V)
    (h : NewBtree maxLen M = some t) :
    t.root = { MaxKey := 0, Nodes := [], Items := [], Next := none } := by
  unfold NewBtree at h
  cases hl : NewLeafNode (V := V) maxLen (if M < 3 then 3 else M) with
  | none => simp only [hl] at h; cases h
  | some root =>
    simp only [hl] at h
    cases h
    exact NewLeafNode_some maxLen _ root hl

theorem NewBtree_some_iff (maxLen : Nat) (M : Int) (t : Btree V) (hM : InInt64 M) :
    NewBtree maxLen M = some t ↔
      (max M 3 + 1 < 2 ^ 63 ∧ max M 3 + 1 ≤ maxLen) ∧
      t = { root := { MaxKey := 0, Nodes := [], Items := [], Next := none },
            M := max M 3, halfM := Int.tdiv (max M 3 + 1) 2 } := by
  have hm : (if M < 3 then 3 else M) = max M 3 := by
    by_cases h : M < 3
    · rw [if_pos h, max_eq_right (by omega)]
    · rw [if_neg h, max_eq_left (by omega)]
  have h3 : (3 : Int) ≤ max M 3 := le_max_right _ _
  have hlt : max M 3 < 2 ^ 63 := max_lt hM.2 (by norm_num)
  have hw := wrap64_succ (max M 3) (by omega) hlt
  simp only [NewBtree, NewLeafNode, hm]
  by_cases hov : max M 3 + 1 < 2 ^ 63
  · rw [if_pos hov] at hw
    rw [hw]
    by_cases hal : max M 3 + 1 ≤ maxLen
    · rw [if_neg (by omega)]
      constructor
      · intro h
        exact ⟨⟨hov, hal⟩, (Option.some.inj h).symm⟩
      · rintro ⟨_, h⟩
        rw [h]
    · rw [if_pos (Or.inr (by omega))]
      constructor
      · intro h; cases h
      · rintro ⟨⟨_, h⟩, _⟩
        exact absurd h hal
  · rw [if_neg hov] at hw
    rw [hw, if_pos (Or.inl (by norm_num))]
    constructor
    · intro h; cases h
    · rintro ⟨⟨h, _⟩, _⟩
      exact absurd h hov

theorem NewBtree_returns_iff (maxLen : Nat) (M : Int) (hM : InInt64 M) :
    (∃ t : Btree V, NewBtree maxLen M = some t) ↔
      (max M 3 + 1 < 2 ^ 63 ∧ max M 3 + 1 ≤ maxLen) := by
  constructor
  · rintro ⟨t, ht⟩
    exact ((NewBtree_some_iff maxLen M t hM).mp ht).1
  · intro h
    exact ⟨_, (NewBtree_some_iff maxLen M _ hM).mpr ⟨h, rfl⟩⟩

theorem NewBtree_none_at_largest_int (maxLen : Nat) :
    NewBtree (V := V) maxLen (2 ^ 63 - 1) = none := by
  cases h : NewBtree (V := V) maxLen (2 ^ 63 - 1) with
  | none => rfl
  | some t =>
    have hr := (NewBtree_returns_iff (V := V) maxLen (2 ^ 63 - 1) (by decide)).mp ⟨t, h⟩
    have hmax : (max (2 ^ 63 - 1) 3 : Int) = 2 ^ 63 - 1 := by decide
    rw [hmax] at hr
    exact absurd hr.1 (by decide)

theorem NewBtree_four (extra : Nat) :
    NewBtree (V := V) (5 + extra) 4 =
      some { root := { MaxKey := 0, Nodes := [], Items := [], Next := none },
             M := 4, halfM := 2 } := by
  rw [NewBtree_some_iff (5 + extra) 4 _ (by decide)]
  refine ⟨⟨by decide, ?_⟩, ?_⟩
  · have : (max 4 3 : Int) = 4 := by decide
    rw [this]; push_cast; omega
  · have h1 : (max 4 3 : Int) = 4 := by decide
    have h2 : Int.tdiv (4 + 1) 2 = 2 := by decide
    rw [h1, h2]

theorem Get_of_leaf_root (t : Btree V) (key : Int) (h : t.root.Nodes = []) :
    Get t key = some (match t.root.Items.find? (fun it => decide (it.Key = key)) with
                      | some it => it.Val
                      | none => none) := by
  have h1 : Get.descend key t.root 0 = some t.root := descend_exit key t.root 0 (by simp [h])
  have h2 := search_eq_find key [] t.root.Items
  simp only [Get, h1]
  rw [if_neg (by simp [h])]
  exact h2

/-! ## Lookup -/

/-- C1, at the failing input: `tree18` is a well-formed tree of height three whose leaf
`leaf12` holds the record with key 1 and value 10, yet `Get(1)` returns nil.  The descent
enters `inner14` with the loop counter reset to 0, the post statement makes it 1, the first
child `leaf12` is skipped, and the scan ends in `leaf34`. -/
theorem Get_skips_first_child_of_inner_node :
    WellFormed tree18 ∧
    ⟨1, some 10⟩ ∈ tree18.root.records ∧
    Get.descend 1 tree18.root 0 = some leaf34 ∧
    Get tree18 1 = some none := by
  have h1 : Get.descend 1 root18 0 = some leaf34 := by
    rw [descend_down 1 root18 inner14 0 rfl (by decide),
      descend_down 1 inner14 leaf34 1 rfl (by decide),
      descend_exit 1 leaf34 1 (by decide)]
  refine ⟨by decide, by decide, h1, ?_⟩
  have h2 := search_eq_find 1 [] leaf34.Items
  simp only [Get, tree18, h1]
  rw [if_neg (by decide)]
  exact h2.trans (by decide)

/-- C2, at the failing input: `Set` leaves the tree as it was, so on every tree that
`NewBtree(M)` returns, for every key and every non-nil value, `Get(key)` after
`Set(key, value)` returns nil; in the scenario `M = 4`, where `NewBtree` returns as soon as
`make` can allocate 5 records, with keys 1 to 10 inserted in order, `Get(7)` returns nil. -/
theorem Get_after_Set_on_new_tree_is_nil :
    (∀ (maxLen : Nat) (M key : Int) (v : V) (t : Btree V), NewBtree maxLen M = some t →
      Get (Set t key (some v)) key = some none) ∧
    (∀ extra : Nat, ∃ t : Btree Nat, NewBtree (5 + extra) 4 = some t ∧
      Get (SetAll t scenario) 7 = some none) := by
  constructor
  · intro maxLen M key v t ht
    have hr := NewBtree_root maxLen M t ht
    rw [Set, Get_of_leaf_root t key (by rw [hr]), hr]
    rfl
  · intro extra
    refine ⟨_, NewBtree_four extra, ?_⟩
    have : ∀ t : Btree Nat, SetAll t scenario = t := fun t => rfl
    rw [this, Get_of_leaf_root _ _ rfl]
    rfl

/-! ## Construction -/

/-- C7: for every `int` value `M`, `NewBtree(M)` returns a tree exactly when `M' + 1` does
not overflow and `make` can allocate `M' + 1` records, `M' = max(M, 3)`; the tree it returns
has branching factor `M'`, so a factor below 3 is clamped to 3, and its `halfM` is the
ceiling of `M' / 2`. -/
theorem NewBtree_halfM_is_ceil_half (maxLen : Nat) (M : Int) (hM : InInt64 M) :
    ((∃ t : Btree V, NewBtree maxLen M = some t) ↔
      (max M 3 + 1 < 2 ^ 63 ∧ max M 3 + 1 ≤ maxLen)) ∧
    (∀ t : Btree V, NewBtree maxLen M = some t →
      t.M = max M 3 ∧ t.halfM = ⌈(t.M : ℚ) / 2⌉) := by
  refine ⟨NewBtree_returns_iff maxLen M hM, ?_⟩
  intro t ht
  obtain ⟨_, rfl⟩ := (NewBtree_some_iff maxLen M t hM).mp ht
  refine ⟨rfl, ?_⟩
  have h3 : (3 : Int) ≤ max M 3 := le_max_right _ _
  generalize max M 3 = m at h3
  show Int.tdiv (m + 1) 2 = ⌈(m : ℚ) / 2⌉
  rw [Int.tdiv_eq_ediv (by omega) (by omega)]
  symm
  rw [Int.ceil_eq_iff]
  have hq : ((m + 1) / 2 : Int) * 2 ≤ m + 1 := Int.ediv_mul_le _ (by omega)
  have hr : m + 1 < ((m + 1) / 2 : Int) * 2 + 2 := by omega
  have hq2 : (((m + 1) / 2 : Int) : ℚ) * 2 ≤ (m : ℚ) + 1 := by exact_mod_cast hq
  have hr' : m + 1 ≤ ((m + 1) / 2 : Int) * 2 + 1 := by omega
  have hr3 : (m : ℚ) + 1 ≤ (((m + 1) / 2 : Int) : ℚ) * 2 + 1 := by exact_mod_cast hr'
  constructor <;> linarith

/-- Witness of C7 in the scenario `M = 4`, with `make` able to allocate 5 records: a tree is
returned, with branching factor 4 and `halfM = 2`. -/
theorem NewBtree_halfM_is_ceil_half_witness :
    InInt64 4 ∧
    (((∃ t : Btree Nat, NewBtree 5 4 = some t) ↔
        ((max 4 3 : Int) + 1 < 2 ^ 63 ∧ (max 4 3 : Int) + 1 ≤ (5 : Nat))) ∧
      (∀ t : Btree Nat, NewBtree 5 4 = some t →
        t.M = max 4 3 ∧ t.halfM = ⌈(t.M : ℚ) / 2⌉)) ∧
    (∃ t : Btree Nat, NewBtree 5 4 = some t ∧ t.M = 4 ∧ t.halfM = 2) :=
  ⟨by decide, NewBtree_halfM_is_ceil_half 5 4 (by decide), _, NewBtree_four 0, rfl, rfl⟩

/-- C8, counterexample: with `make` able to allocate 5 records, `NewBtree(4)` returns a tree
with branching factor 4 and `halfM = 2`, while the ceiling of `(4 + 1) / 2` is 3. -/
theorem NewBtree_halfM_at_four :
    ∃ t : Btree Nat, NewBtree 5 4 = some t ∧ t.M = 4 ∧
      t.halfM = 2 ∧ ⌈((t.M : ℚ) + 1) / 2⌉ = 3 ∧ t.halfM ≠ ⌈((t.M : ℚ) + 1) / 2⌉ := by
  refine ⟨_, NewBtree_four 0, rfl, rfl, ?_⟩
  have hc : ⌈(((4 : Int) : ℚ) + 1) / 2⌉ = 3 := by
    rw [Int.ceil_eq_iff]; norm_num
  refine ⟨hc, ?_⟩
  show (2 : Int) ≠ ⌈(((4 : Int) : ℚ) + 1) / 2⌉
  rw [hc]; decide

/-- C8, amended: for every `int` value `M`, `NewBtree(M)` returns a tree exactly when
`M' + 1` does not overflow and `make` can allocate `M' + 1` records, `M' = max(M, 3)`; the
tree it returns has branching factor `M'` and `halfM` the floor of `(M' + 1) / 2`, which is
the ceiling of `(M' + 1) / 2` exactly when `M'` is odd. -/
theorem NewBtree_halfM_is_floor_succ_half (maxLen : Nat) (M : Int) (hM : InInt64 M) :
    ((∃ t : Btree V, NewBtree maxLen M = some t) ↔
      (max M 3 + 1 < 2 ^ 63 ∧ max M 3 + 1 ≤ maxLen)) ∧
    (∀ t : Btree V, NewBtree maxLen M = some t →
      t.M = max M 3 ∧ t.halfM = ⌊((t.M : ℚ) + 1) / 2⌋ ∧
      (t.halfM = ⌈((t.M : ℚ) + 1) / 2⌉ ↔ Odd t.M)) := by
  refine ⟨NewBtree_returns_iff maxLen M hM, ?_⟩
  intro t ht
  obtain ⟨_, rfl⟩ := (NewBtree_some_iff maxLen M t hM).mp ht
  refine ⟨rfl, ?_⟩
  have h3 : (3 : Int) ≤ max M 3 := le_max_right _ _
  generalize max M 3 = m at h3
  show Int.tdiv (m + 1) 2 = ⌊((m : ℚ) + 1) / 2⌋ ∧
    (Int.tdiv (m + 1) 2 = ⌈((m : ℚ) + 1) / 2⌉ ↔ Odd m)
  rw [Int.tdiv_eq_ediv (by omega) (by omega)]
  have hq : ((m + 1) / 2 : Int) * 2 ≤ m + 1 := Int.ediv_mul_le _ (by omega)
  have hr : m + 1 < ((m + 1) / 2 : Int) * 2 + 2 := by omega
  have hq2 : (((m + 1) / 2 : Int) : ℚ) * 2 ≤ (m : ℚ) + 1 := by exact_mod_cast hq
  have hr2 : (m : ℚ) + 1 < (((m + 1) / 2 : Int) : ℚ) * 2 + 2 := by exact_mod_cast hr
  constructor
  · symm
    rw [Int.floor_eq_iff]
    constructor <;> linarith
  · constructor
    · intro h
      have h' := h.symm
      rw [Int.ceil_eq_iff] at h'
      have h4 : (m : ℚ) + 1 ≤ (((m + 1) / 2 : Int) : ℚ) * 2 := by linarith [h'.2]
      have h5 : m + 1 ≤ ((m + 1) / 2 : Int) * 2 := by exact_mod_cast h4
      rw [Int.odd_iff]; omega
    · intro h
      rw [Int.odd_iff] at h
      symm
      rw [Int.ceil_eq_iff]
      have h5 : m + 1 ≤ ((m + 1) / 2 : Int) * 2 := by omega
      have h4 : (m : ℚ) + 1 ≤ (((m + 1) / 2 : Int) : ℚ) * 2 := by exact_mod_cast h5
      constructor <;> linarith

/-- Witness of the amended C8 at `M = 7`, with `make` able to allocate 8 records: a tree is
returned, with branching factor 7 and `halfM = 4`. -/
theorem NewBtree_halfM_is_floor_succ_half_witness :
    InInt64 7 ∧
    (((∃ t : Btree Nat, NewBtree 8 7 = some t) ↔
        ((max 7 3 : Int) + 1 < 2 ^ 63 ∧ (max 7 3 : Int) + 1 ≤ (8 : Nat))) ∧
      (∀ t : Btree Nat, NewBtree 8 7 = some t →
        t.M = max 7 3 ∧ t.halfM = ⌊((t.M : ℚ) + 1) / 2⌋ ∧
        (t.halfM = ⌈((t.M : ℚ) + 1) / 2⌉ ↔ Odd t.M))) ∧
    (∃ t : Btree Nat, NewBtree 8 7 = some t ∧ t.M = 7 ∧ t.halfM = 4) :=
  ⟨by decide, NewBtree_halfM_is_floor_succ_half 8 7 (by decide), _, rfl, rfl, rfl⟩

/-- C9: for every `int` value `M` and every key, `NewBtree(M)` returns a tree exactly when
`M' + 1` does not overflow and `make` can allocate `M' + 1` records, `M' = max(M, 3)`; the
root of the tree it returns has no children, no records and no next leaf, and `Get(key)` on
that tree returns nil. -/
theorem NewBtree_root_is_empty_leaf (maxLen : Nat) (M key : Int) (hM : InInt64 M) :
    ((∃ t : Btree V, NewBtree maxLen M = some t) ↔
      (max M 3 + 1 < 2 ^ 63 ∧ max M 3 + 1 ≤ maxLen)) ∧
    (∀ t : Btree V, NewBtree maxLen M = some t →
      t.root.Nodes = [] ∧ t.root.Items = [] ∧ t.root.Next = none ∧
      Get t key = some none) := by
  refine ⟨NewBtree_returns_iff maxLen M hM, ?_⟩
  intro t ht
  have hr := NewBtree_root maxLen M t ht
  refine ⟨by rw [hr], by rw [hr], by rw [hr], ?_⟩
  rw [Get_of_leaf_root t key (by rw [hr]), hr]
  rfl

/-- Witness of C9 at `M = 0`, clamped to 3, with `make` able to allocate 4 records, and
key 9: a tree is returned and `Get(9)` on it returns nil. -/
theorem NewBtree_root_is_empty_leaf_witness :
    InInt64 0 ∧
    (((∃ t : Btree Nat, NewBtree 4 0 = some t) ↔
        ((max 0 3 : Int) + 1 < 2 ^ 63 ∧ (max 0 3 : Int) + 1 ≤ (4 : Nat))) ∧
      (∀ t : Btree Nat, NewBtree 4 0 = some t →
        t.root.Nodes = [] ∧ t.root.Items = [] ∧ t.root.Next = none ∧
        Get t 9 = some none)) ∧
    (∃ t : Btree Nat, NewBtree 4 0 = some t ∧ t.M = 3 ∧ Get t 9 = some none) :=
  ⟨by decide, NewBtree_root_is_empty_leaf 4 0 9 (by decide), _, rfl, rfl,
    ((NewBtree_root_is_empty_leaf 4 0 9 (by decide)).2 _ rfl).2.2.2⟩

/-! ## Leaf insertion -/

/-- C3: on every node whose records are strictly ascending by key, `setValue(key, value)`
returns, and the records of the node it leaves are strictly ascending by key, so no two of
them share a key. -/
theorem setValue_keeps_ascending (node : BPNode V) (key : Int) (value : Iface V)
    (hs : Ascending node.Items) :
    ∃ node', setValue node key value = some node' ∧ Ascending node'.Items ∧
      (node'.Items.map (·.Key)).Nodup := by
  refine ⟨_, setValue_sorted node key value hs, ?_, ?_⟩
  · exact ascending_insertOrOverwrite node.Items key value hs
  · have h := ascending_insertOrOverwrite node.Items key value hs
    have h2 : (List.map (·.Key) (insertOrOverwrite node.Items key value)).Pairwise (· < ·) :=
      List.pairwise_map.mpr h
    exact h2.imp (fun hab => ne_of_lt hab)

/-- Witness of C3 on `leaf34` with the new key 5. -/
theorem setValue_keeps_ascending_witness :
    Ascending leaf34.Items ∧
    ∃ node', setValue leaf34 5 (some 50) = some node' ∧ Ascending node'.Items ∧
      (node'.Items.map (·.Key)).Nodup :=
  ⟨by decide, setValue_keeps_ascending leaf34 5 (some 50) (by decide)⟩

/-- C4: on every node whose records are strictly ascending by key, `setValue(k, v)` returns
and the records it leaves are the reference insert-or-overwrite of `(k, v)`: the old records
with a key below `k`, then `(k, v)`, then the old records with a key above `k`.  Their number
is unchanged when `k` was present and is one more when it was absent. -/
theorem setValue_is_insertOrOverwrite (node : BPNode V) (k : Int) (v : Iface V)
    (hs : Ascending node.Items) :
    ∃ node', setValue node k v = some node' ∧
      node'.Items = insertOrOverwrite node.Items k v ∧
      node'.Items.length =
        if ∃ x ∈ node.Items, x.Key = k then node.Items.length else node.Items.length + 1 :=
  ⟨_, setValue_sorted node k v hs, rfl, length_insertOrOverwrite node.Items k v hs⟩

/-- Witness of C4 on `leaf56` with the key 4, which goes in front. -/
theorem setValue_is_insertOrOverwrite_witness :
    Ascending leaf56.Items ∧
    ∃ node', setValue leaf56 4 (some 40) = some node' ∧
      node'.Items = insertOrOverwrite leaf56.Items 4 (some 40) ∧
      node'.Items.length =
        if ∃ x ∈ leaf56.Items, x.Key = 4 then leaf56.Items.length
        else leaf56.Items.length + 1 :=
  ⟨by decide, setValue_is_insertOrOverwrite leaf56 4 (some 40) (by decide)⟩

/-- C5: on every node that has no records or whose `MaxKey` is the key of its last record,
`setValue(key, value)` returns a node that has records and whose `MaxKey` is the key of its
last record; when the old records were strictly ascending, that `MaxKey` is the largest key
stored in the node. -/
theorem setValue_maxKey_is_last_key (node : BPNode V) (key : Int) (value : Iface V)
    (h : node.Items = [] ∨ node.Items.getLast?.map (·.Key) = some node.MaxKey) :
    ∃ node', setValue node key value = some node' ∧ node'.Items ≠ [] ∧
      node'.Items.getLast?.map (·.Key) = some node'.MaxKey ∧
      (Ascending node.Items →
        (∀ x ∈ node'.Items, x.Key ≤ node'.MaxKey) ∧ ∃ x ∈ node'.Items, x.Key = node'.MaxKey) := by
  have main : ∃ node', setValue node key value = some node' ∧ node'.Items ≠ [] ∧
      node'.Items.getLast?.map (·.Key) = some node'.MaxKey := by
    refine ⟨_, setValue_cases node key value, ?_⟩
    cases hl : node.Items with
    | nil => simp
    | cons x xs =>
      have hlast : (x :: xs).getLast?.map (·.Key) = some node.MaxKey := by
        rcases h with h | h
        · rw [hl] at h; cases h
        · rw [hl] at h; exact h
      have hlast2 : (x :: xs).getLast? = some ((x :: xs).getLast (by simp)) :=
        List.getLast?_eq_getLast _ _
      have hhead : (x :: xs).head? = some x := rfl
      simp only [hhead, hlast2]
      by_cases h1 : key < x.Key
      · rw [if_pos h1]
        refine ⟨by simp, ?_⟩
        show (⟨key, value⟩ :: x :: xs).getLast?.map (·.Key) = some node.MaxKey
        rw [List.getLast?_cons_cons]; exact hlast
      · rw [if_neg h1]
        by_cases h2 : key > ((x :: xs).getLast (by simp)).Key
        · rw [if_pos h2]
          refine ⟨by simp, ?_⟩
          show ((x :: xs) ++ [(⟨key, value⟩ : BPItem V)]).getLast?.map (fun y => y.Key)
            = some key
          rw [List.getLast?_append]
          rfl
        · rw [if_neg h2]
          cases hsc : scanFrom key ⟨key, value⟩ (x :: xs) with
          | none => exact ⟨by simp [hl], by simp only [hl]; exact hlast⟩
          | some r =>
            obtain ⟨hne, hk⟩ := scanFrom_getLast key ⟨key, value⟩ (x :: xs) r rfl hsc
            exact ⟨hne, hk.trans hlast⟩
  obtain ⟨node', he, hne, hk⟩ := main
  refine ⟨node', he, hne, hk, ?_⟩
  intro hs
  have he2 := setValue_sorted node key value hs
  rw [he] at he2
  have hasc : Ascending node'.Items := by
    rw [Option.some.inj he2]
    exact ascending_insertOrOverwrite node.Items key value hs
  have hlast : (node'.Items.getLast hne).Key = node'.MaxKey := by
    rw [List.getLast?_eq_getLast _ hne] at hk
    exact Option.some.inj hk
  refine ⟨?_, node'.Items.getLast hne, List.getLast_mem _, hlast⟩
  intro x hx
  rw [← hlast]
  exact ascending_le_getLast node'.Items hne hasc x hx

/-- Witness of C5 on `leaf12`, whose `MaxKey` 2 is the key of its last record, with the new
largest key 9. -/
theorem setValue_maxKey_is_last_key_witness :
    (leaf12.Items = [] ∨ leaf12.Items.getLast?.map (·.Key) = some leaf12.MaxKey) ∧
    ∃ node', setValue leaf12 9 (some 90) = some node' ∧ node'.Items ≠ [] ∧
      node'.Items.getLast?.map (·.Key) = some node'.MaxKey ∧
      (Ascending leaf12.Items →
        (∀ x ∈ node'.Items, x.Key ≤ node'.MaxKey) ∧ ∃ x ∈ node'.Items, x.Key = node'.MaxKey) :=
  ⟨by decide, setValue_maxKey_is_last_key leaf12 9 (some 90) (by decide)⟩

/-- C6: on every node whose records are strictly ascending by key and hold a record with key
`k`, `setValue(k, v)` returns a node with the same number of records and the same keys, in
which every position holding a key other than `k` holds the old record, every position
holding `k` holds `(k, v)`, such a position exists, and `MaxKey`, `Nodes` and `Next` are the
old ones. -/
theorem setValue_overwrite_frame (node : BPNode V) (k : Int) (v : Iface V)
    (hs : Ascending node.Items) (hk : ∃ x ∈ node.Items, x.Key = k) :
    ∃ node', setValue node k v = some node' ∧
      node'.Items.length = node.Items.length ∧
      node'.Items.map (·.Key) = node.Items.map (·.Key) ∧
      (∀ (i : Nat) (x : BPItem V),
        node.Items[i]? = some x → x.Key ≠ k → node'.Items[i]? = some x) ∧
      (∀ (i : Nat) (x : BPItem V),
        node.Items[i]? = some x → x.Key = k → node'.Items[i]? = some ⟨k, v⟩) ∧
      (∃ i : Nat, node'.Items[i]? = some ⟨k, v⟩) ∧
      node'.MaxKey = node.MaxKey ∧ node'.Nodes = node.Nodes ∧ node'.Next = node.Next := by
  have hall : ¬ ∀ x ∈ node.Items, x.Key < k := by
    obtain ⟨x, hx, hxk⟩ := hk
    intro h; have := h x hx; omega
  have he := setValue_sorted node k v hs
  rw [if_neg hall, insertOrOverwrite_of_mem node.Items k v hs hk] at he
  have hat : ∀ (i : Nat) (x : BPItem V), node.Items[i]? = some x →
      (node.Items.map (fun x => if x.Key = k then (⟨k, v⟩ : BPItem V) else x))[i]?
        = some (if x.Key = k then ⟨k, v⟩ else x) := by
    intro i x hi
    rw [List.getElem?_map, hi]; rfl
  refine ⟨_, he, by simp, ?_, ?_, ?_, ?_, rfl, rfl, rfl⟩
  · simp only [List.map_map]
    apply List.map_congr_left
    intro x _
    by_cases h : x.Key = k <;> simp [h]
  · intro i x hi hne
    have := hat i x hi
    rw [if_neg hne] at this
    exact this
  · intro i x hi heq
    have := hat i x hi
    rw [if_pos heq] at this
    exact this
  · obtain ⟨x, hx, hxk⟩ := hk
    obtain ⟨i, hi⟩ := List.getElem?_of_mem hx
    refine ⟨i, ?_⟩
    have := hat i x hi
    rw [if_pos hxk] at this
    exact this

/-- Witness of C6 on `leaf78`, overwriting the value of key 7. -/
theorem setValue_overwrite_frame_witness :
    (Ascending leaf78.Items ∧ ∃ x ∈ leaf78.Items, x.Key = 7) ∧
    ∃ node', setValue leaf78 7 (some 71) = some node' ∧
      node'.Items.length = leaf78.Items.length ∧
      node'.Items.map (·.Key) = leaf78.Items.map (·.Key) ∧
      (∀ (i : Nat) (x : BPItem Nat),
        leaf78.Items[i]? = some x → x.Key ≠ 7 → node'.Items[i]? = some x) ∧
      (∀ (i : Nat) (x : BPItem Nat),
        leaf78.Items[i]? = some x → x.Key = 7 → node'.Items[i]? = some ⟨7, some 71⟩) ∧
      (∃ i : Nat, node'.Items[i]? = some ⟨7, some 71⟩) ∧
      node'.MaxKey = leaf78.MaxKey ∧ node'.Nodes = leaf78.Nodes ∧ node'.Next = leaf78.Next :=
  ⟨⟨by decide, by decide⟩,
    setValue_overwrite_frame leaf78 7 (some 71) (by decide) (by decide)⟩

/-- C10: on every node whose records are strictly ascending by key, `setValue(k, v)` returns
a node on which a second `setValue(k, v)` returns that same node: records, `MaxKey` and the
other fields are those left by the first call. -/
theorem setValue_idempotent (node : BPNode V) (k : Int) (v : Iface V)
    (hs : Ascending node.Items) :
    ∃ node', setValue node k v = some node' ∧ setValue node' k v = some node' := by
  refine ⟨_, setValue_sorted node k v hs, ?_⟩
  have hasc := ascending_insertOrOverwrite node.Items k v hs
  have hmem : (⟨k, v⟩ : BPItem V) ∈ insertOrOverwrite node.Items k v := by
    simp [insertOrOverwrite]
  have honly : ∀ x ∈ insertOrOverwrite node.Items k v, x.Key = k → x = ⟨k, v⟩ := by
    intro x hx hxk
    simp only [insertOrOverwrite, List.mem_append, List.mem_filter, List.mem_singleton,
      decide_eq_true_eq] at hx
    rcases hx with (hx | hx) | hx
    · omega
    · exact hx
    · omega
  have hall : ¬ ∀ x ∈ insertOrOverwrite node.Items k v, x.Key < k := by
    intro h; have := h _ hmem; simp at this
  have hfix : insertOrOverwrite (insertOrOverwrite node.Items k v) k v
      = insertOrOverwrite node.Items k v := by
    rw [insertOrOverwrite_of_mem _ k v hasc ⟨_, hmem, rfl⟩]
    have : ∀ x ∈ insertOrOverwrite node.Items k v,
        (fun x => if x.Key = k then (⟨k, v⟩ : BPItem V) else x) x = id x := by
      intro x hx
      by_cases h : x.Key = k
      · simp [h, honly x hx h]
      · simp [h]
    rw [List.map_congr_left this, List.map_id]
  have he := setValue_sorted
    { node with
      Items := insertOrOverwrite node.Items k v,
      MaxKey := if ∀ x ∈ node.Items, x.Key < k then k else node.MaxKey } k v hasc
  rw [he]
  simp only [hfix, if_neg hall]

/-- Witness of C10 on `leaf12` with the new key 0. -/
theorem setValue_idempotent_witness :
    Ascending leaf12.Items ∧
    ∃ node', setValue leaf12 0 (some 5) = some node' ∧ setValue node' 0 (some 5) = some node' :=
  ⟨by decide, setValue_idempotent leaf12 0 (some 5) (by decide)⟩

/-! ## Lemmas on the tree walk and the descent -/

theorem walk_eq (d : Nat) (n : BPNode V) :
    n.walk d = (d, n) :: walkAll (d + 1) n.Nodes := by
  cases n; rfl

theorem mem_walkAll_of_mem (d : Nat) (c : BPNode V) (cs : List (BPNode V))
    (p : Nat × BPNode V) (hc : c ∈ cs) (hp : p ∈ c.walk d) : p ∈ walkAll d cs := by
  induction cs with
  | nil => cases hc
  | cons a cs ih =>
    rw [walkAll, List.mem_append]
    rcases List.mem_cons.mp hc with rfl | hc
    · exact Or.inl hp
    · exact Or.inr (ih hc)

theorem mem_walk_of_child (d : Nat) (n c : BPNode V) (p : Nat × BPNode V)
    (hc : c ∈ n.Nodes) (hp : p ∈ c.walk (d + 1)) : p ∈ n.walk d := by
  rw [walk_eq]
  exact List.mem_cons_of_mem _ (mem_walkAll_of_mem (d + 1) c n.Nodes p hc hp)

theorem descend_total (key : Int) (node : BPNode V) (i : Nat) :
    ∃ r, Get.descend key node i = some r := by
  refine Get.descend.induct key (fun node i => ∃ r, Get.descend key node i = some r)
    ?_ ?_ ?_ ?_ node i
  · intro node i hi hnone
    rw [List.getElem?_eq_getElem hi] at hnone
    cases hnone
  · intro node i _ child hc hk ih
    rw [descend_down key node child i hc hk]
    exact ih
  · intro node i _ child hc hk ih
    rw [descend_skip key node child i hc hk]
    exact ih
  · intro node i hi
    exact ⟨node, descend_exit key node i (by omega)⟩

theorem descend_mem_walk (key : Int) (node : BPNode V) (i : Nat) :
    ∀ r, Get.descend key node i = some r → ∀ d, ∃ d', (d', r) ∈ node.walk d := by
  refine Get.descend.induct key
    (fun node i => ∀ r, Get.descend key node i = some r → ∀ d, ∃ d', (d', r) ∈ node.walk d)
    ?_ ?_ ?_ ?_ node i
  · intro node i hi hnone
    rw [List.getElem?_eq_getElem hi] at hnone
    cases hnone
  · intro node i _ child hc hk ih r hr d
    rw [descend_down key node child i hc hk] at hr
    obtain ⟨d', hd'⟩ := ih r hr (d + 1)
    exact ⟨d', mem_walk_of_child d node child _ (List.getElem?_mem hc) hd'⟩
  · intro node i _ child hc hk ih r hr d
    rw [descend_skip key node child i hc hk] at hr
    exact ih r hr d
  · intro node i hi r hr d
    rw [descend_exit key node i (by omega)] at hr
    cases hr
    exact ⟨d, by rw [walk_eq]; exact List.mem_cons_self _ _⟩

theorem Get_eq_of_descend (t : Btree V) (key : Int) (r : BPNode V)
    (h : Get.descend key t.root 0 = some r) :
    Get t key = if r.Nodes.length > 0 then some none
      else some (match r.Items.find? (fun it => decide (it.Key = key)) with
                 | some it => it.Val
                 | none => none) := by
  have h2 := search_eq_find key [] r.Items
  simp only [List.nil_append, List.length_nil] at h2
  simp only [Get, h, h2]

theorem walkAll_drop_one_le (d : Nat) (cs : List (BPNode V)) :
    (walkAll d (cs.drop 1)).length ≤ (walkAll d cs).length := by
  cases cs with
  | nil => simp
  | cons c cs => simp [walkAll]

theorem descendFuel_eq_descend (key : Int) (node : BPNode V) (i : Nat) :
    ∀ d fuel, 1 + (walkAll d (node.Nodes.drop i)).length ≤ fuel →
      Get.descendFuel key fuel node i = some (Get.descend key node i) := by
  refine Get.descend.induct key
    (fun node i => ∀ d fuel, 1 + (walkAll d (node.Nodes.drop i)).length ≤ fuel →
      Get.descendFuel key fuel node i = some (Get.descend key node i))
    ?_ ?_ ?_ ?_ node i
  · intro node i hi hnone
    rw [List.getElem?_eq_getElem hi] at hnone
    cases hnone
  · intro node i hi child hc hk ih d fuel hf
    have hdrop : node.Nodes.drop i = child :: node.Nodes.drop (i + 1) := by
      rw [List.drop_eq_getElem_cons hi]
      rw [List.getElem?_eq_getElem hi] at hc
      rw [Option.some.inj hc]
    rw [hdrop, walkAll, List.length_append, walk_eq, List.length_cons] at hf
    have hle := walkAll_drop_one_le (d + 1) child.Nodes
    cases fuel with
    | zero => omega
    | succ f =>
      rw [Get.descendFuel, if_pos hi, hc]
      simp only [if_pos hk]
      rw [ih (d + 1) f (by simp only [Nat.zero_add]; omega),
        descend_down key node child i hc hk]
  · intro node i hi child hc hk ih d fuel hf
    have hdrop : node.Nodes.drop i = child :: node.Nodes.drop (i + 1) := by
      rw [List.drop_eq_getElem_cons hi]
      rw [List.getElem?_eq_getElem hi] at hc
      rw [Option.some.inj hc]
    rw [hdrop, walkAll, List.length_append, walk_eq, List.length_cons] at hf
    cases fuel with
    | zero => omega
    | succ f =>
      rw [Get.descendFuel, if_pos hi, hc]
      simp only [if_neg hk]
      rw [ih d f (by omega), descend_skip key node child i hc hk]
  · intro node i hi d fuel hf
    cases fuel with
    | zero => omega
    | succ f =>
      rw [Get.descendFuel, if_neg hi, descend_exit key node i (by omega)]

/-! ## Lookup on any tree -/

/-- C14: for every tree and every key, the descent loop of `Get` started at the root exits:
run with as many evaluations of its loop condition as the tree has nodes, or more, it has
exited at a node and has not run out; and no access `node.Nodes[i]` is out of bounds, the
loop never panics. -/
theorem Get_descent_terminates_in_bounds (t : Btree V) (key : Int) :
    ∃ r, Get.descend key t.root 0 = some r ∧
      ∀ extra : Nat,
        Get.descendFuel key ((t.root.walk 0).length + extra) t.root 0 = some (some r) := by
  obtain ⟨r, hr⟩ := descend_total key t.root 0
  refine ⟨r, hr, ?_⟩
  intro extra
  rw [descendFuel_eq_descend key t.root 0 1 _ (by rw [walk_eq]; simp; omega), hr]

/-- C17: on every tree, well-formed or not, when `Get(key)` returns a non-nil value `v`, a
node of the tree that has no children holds a record with key `key` and value `v`. -/
theorem Get_sound (t : Btree V) (key : Int) (v : V) (h : Get t key = some (some v)) :
    ∃ p ∈ t.root.walk 0, p.2.Nodes = [] ∧ (⟨key, some v⟩ : BPItem V) ∈ p.2.Items := by
  obtain ⟨r, hr⟩ := descend_total key t.root 0
  obtain ⟨d, hd⟩ := descend_mem_walk key t.root 0 r hr 0
  rw [Get_eq_of_descend t key r hr] at h
  by_cases hn : r.Nodes.length > 0
  · rw [if_pos hn] at h; cases h
  · rw [if_neg hn] at h
    have hz : r.Nodes.length = 0 := by omega
    refine ⟨(d, r), hd, List.eq_nil_of_length_eq_zero hz, ?_⟩
    cases hf : r.Items.find? (fun it => decide (it.Key = key)) with
    | none => rw [hf] at h; cases h
    | some it =>
      rw [hf] at h
      have hv : it.Val = some v := Option.some.inj h
      have hk : it.Key = key := by simpa using List.find?_some hf
      have hm : it ∈ r.Items := List.mem_of_find?_eq_some hf
      have : it = ⟨key, some v⟩ := by
        cases it; simp at hk hv; simp [hk, hv]
      rw [← this]; exact hm

/-- Witness of C17 on `tree18` with key 3, found in `leaf34` with value 30. -/
theorem Get_sound_witness :
    Get tree18 3 = some (some 30) ∧
    ∃ p ∈ tree18.root.walk 0, p.2.Nodes = [] ∧ (⟨3, some 30⟩ : BPItem Nat) ∈ p.2.Items :=
  have h : Get tree18 3 = some (some 30) := by
    have h1 : Get.descend 3 tree18.root 0 = some leaf34 := by
      show Get.descend 3 root18 0 = some leaf34
      rw [descend_down 3 root18 inner14 0 rfl (by decide),
        descend_down 3 inner14 leaf34 1 rfl (by decide),
        descend_exit 3 leaf34 1 (by decide)]
    rw [Get_eq_of_descend tree18 3 leaf34 h1]
    decide
  ⟨h, Get_sound tree18 3 30 h⟩

/-! ## Lookup on trees of height at most two -/

theorem records_of_leaf (n : BPNode V) (h : n.Nodes = []) : n.records = n.Items := by
  simp [BPNode.records, walk_eq, h, walkAll]

theorem records_walkAll_leaves (d : Nat) (cs : List (BPNode V))
    (h : ∀ c ∈ cs, c.Nodes = []) :
    ((walkAll d cs).filter (fun p => p.2.Nodes.isEmpty)).flatMap (fun p => p.2.Items)
      = cs.flatMap (fun c => c.Items) := by
  induction cs with
  | nil => simp [walkAll]
  | cons c cs ih =>
    have hc : c.Nodes = [] := h c (by simp)
    have ih2 := ih (fun x hx => h x (by simp [hx]))
    rw [walkAll, List.filter_append, List.flatMap_append, ih2, walk_eq, hc]
    simp [walkAll, hc]

theorem records_of_leaf_children (n : BPNode V) (hne : n.Nodes ≠ [])
    (h : ∀ c ∈ n.Nodes, c.Nodes = []) :
    n.records = n.Nodes.flatMap (fun c => c.Items) := by
  have hemp : n.Nodes.isEmpty = false := by
    cases hn : n.Nodes with
    | nil => exact absurd hn hne
    | cons a l => rfl
  rw [BPNode.records, walk_eq, List.filter_cons]
  simp only [hemp, Bool.false_eq_true, if_false]
  exact records_walkAll_leaves 1 n.Nodes h

theorem descend_over_leaves (key : Int) (node : BPNode V) (p q : List (BPNode V))
    (h : node.Nodes = p ++ q) (hl : ∀ c ∈ q, c.Nodes = []) :
    Get.descend key node p.length =
      some (match q.find? (fun c => decide (key ≤ c.MaxKey)) with
            | some c => c
            | none => node) := by
  induction q generalizing p with
  | nil => rw [descend_exit key node p.length (by simp [h])]; rfl
  | cons c q ih =>
    have hget : node.Nodes[p.length]? = some c := by
      rw [h, List.getElem?_append_right (le_refl _)]; simp
    by_cases hk : key ≤ c.MaxKey
    · rw [descend_down key node c p.length hget hk,
        descend_exit key c 1 (by simp [hl c (by simp)])]
      simp [List.find?_cons, hk]
    · rw [descend_skip key node c p.length hget hk]
      have := ih (p ++ [c]) (by simp [h]) (fun x hx => hl x (by simp [hx]))
      simp only [List.length_append, List.length_singleton] at this
      rw [this]
      simp [List.find?_cons, hk]

theorem find_key_of_ascending (l : List (BPItem V)) (x : BPItem V)
    (hs : Ascending l) (hx : x ∈ l) :
    l.find? (fun it => decide (it.Key = x.Key)) = some x := by
  induction l with
  | nil => cases hx
  | cons c q ih =>
    have hq : Ascending q := (List.pairwise_cons.mp hs).2
    have hc : ∀ y ∈ q, c.Key < y.Key := (List.pairwise_cons.mp hs).1
    rcases List.mem_cons.mp hx with rfl | hx
    · simp [List.find?_cons]
    · have hne : c.Key ≠ x.Key := by have := hc x hx; omega
      simp only [List.find?_cons, hne, decide_False]
      exact ih hq hx

theorem find_key_none (l : List (BPItem V)) (key : Int) (h : ∀ x ∈ l, x.Key ≠ key) :
    l.find? (fun it => decide (it.Key = key)) = none := by
  rw [List.find?_eq_none]
  intro x hx
  simpa using h x hx

theorem find_leaf_of_holds (key : Int) (L : List (BPNode V)) (c : BPNode V) (x : BPItem V)
    (hw : ∀ a ∈ L, a.Items ≠ [] ∧ Ascending a.Items ∧
      a.Items.getLast?.map (·.Key) = some a.MaxKey)
    (ho : L.Pairwise (fun a b => ∀ u ∈ a.Items, ∀ y ∈ b.Items, u.Key < y.Key))
    (hc : c ∈ L) (hx : x ∈ c.Items) (hk : x.Key = key) :
    ∃ c', L.find? (fun a => decide (key ≤ a.MaxKey)) = some c' ∧ x ∈ c'.Items := by
  have hmax : ∀ a ∈ L, ∃ u ∈ a.Items, u.Key = a.MaxKey ∧ ∀ y ∈ a.Items, y.Key ≤ a.MaxKey := by
    intro a ha
    obtain ⟨hne, hs, hlast⟩ := hw a ha
    rw [List.getLast?_eq_getLast _ hne] at hlast
    have hlast : (a.Items.getLast hne).Key = a.MaxKey := Option.some.inj hlast
    refine ⟨_, List.getLast_mem hne, hlast, ?_⟩
    intro y hy
    rw [← hlast]
    exact ascending_le_getLast a.Items hne hs y hy
  induction L with
  | nil => cases hc
  | cons a L ih =>
    have hoa : ∀ b ∈ L, ∀ u ∈ a.Items, ∀ y ∈ b.Items, u.Key < y.Key :=
      (List.pairwise_cons.mp ho).1
    obtain ⟨u, hu, huk, hle⟩ := hmax a (by simp)
    by_cases hka : key ≤ a.MaxKey
    · refine ⟨a, by simp [List.find?_cons, hka], ?_⟩
      rcases List.mem_cons.mp hc with rfl | hcL
      · exact hx
      · have := hoa c hcL u hu x hx
        omega
    · have hcL : c ∈ L := by
        rcases List.mem_cons.mp hc with rfl | hcL
        · have := hle x hx; omega
        · exact hcL
      obtain ⟨c', hf, hx'⟩ := ih (fun b hb => hw b (by simp [hb]))
        (List.pairwise_cons.mp ho).2 hcL (fun b hb => hmax b (by simp [hb]))
      exact ⟨c', by simp [List.find?_cons, hka, hf], hx'⟩

/-- C12: on every well-formed tree of height at most two and for every key, `Get(key)`
returns the value of the record with that key when the leaves hold one, and nil when they
hold none; when the root has children and the key is above the `MaxKey` of each of them,
`Get(key)` returns nil. -/
theorem Get_correct_on_low_tree (t : Btree V) (key : Int) (h : WellFormedLow t) :
    (∀ x ∈ t.root.records, x.Key = key → Get t key = some x.Val) ∧
    ((∀ x ∈ t.root.records, x.Key ≠ key) → Get t key = some none) ∧
    (t.root.Nodes ≠ [] → (∀ c ∈ t.root.Nodes, c.MaxKey < key) → Get t key = some none) := by
  rcases h with ⟨hroot, hs⟩ | ⟨hroot, hleaf, hord⟩
  · have hn : t.root.Nodes = [] := List.isEmpty_iff.mp hroot
    have hg := Get_of_leaf_root t key hn
    rw [records_of_leaf t.root hn]
    refine ⟨?_, ?_, fun hne => absurd hn hne⟩
    · intro x hx hk
      subst hk
      rw [hg, find_key_of_ascending t.root.Items x hs hx]
    · intro hnone
      rw [hg, find_key_none t.root.Items key hnone]
  · have hne : t.root.Nodes ≠ [] := by
      intro hn; rw [hn] at hroot; cases hroot
    have hl : ∀ c ∈ t.root.Nodes, c.Nodes = [] :=
      fun c hc => List.isEmpty_iff.mp (hleaf c hc).1
    have hw : ∀ a ∈ t.root.Nodes, a.Items ≠ [] ∧ Ascending a.Items ∧
        a.Items.getLast?.map (·.Key) = some a.MaxKey := by
      intro a ha
      obtain ⟨_, h2, h3, h4⟩ := hleaf a ha
      refine ⟨?_, h3, h4⟩
      intro he; rw [he] at h2; cases h2
    have hd := descend_over_leaves key t.root [] t.root.Nodes rfl hl
    simp only [List.length_nil] at hd
    rw [records_of_leaf_children t.root hne hl]
    have hpos : t.root.Nodes.length > 0 := List.length_pos.mpr hne
    refine ⟨?_, ?_, ?_⟩
    · intro x hx hk
      obtain ⟨c, hc, hxc⟩ := List.mem_flatMap.mp hx
      obtain ⟨c', hf, hxc'⟩ := find_leaf_of_holds key t.root.Nodes c x hw hord hc hxc hk
      rw [hf] at hd
      have hc' : c' ∈ t.root.Nodes := List.mem_of_find?_eq_some hf
      rw [Get_eq_of_descend t key c' hd, if_neg (by simp [hl c' hc'])]
      subst hk
      rw [find_key_of_ascending c'.Items x (hw c' hc').2.1 hxc']
    · intro hnone
      cases hf : t.root.Nodes.find? (fun a => decide (key ≤ a.MaxKey)) with
      | none =>
        rw [hf] at hd
        rw [Get_eq_of_descend t key t.root hd, if_pos hpos]
      | some c' =>
        rw [hf] at hd
        have hc' : c' ∈ t.root.Nodes := List.mem_of_find?_eq_some hf
        rw [Get_eq_of_descend t key c' hd, if_neg (by simp [hl c' hc'])]
        rw [find_key_none c'.Items key
          (fun x hx => hnone x (List.mem_flatMap.mpr ⟨c', hc', hx⟩))]
    · intro _ habove
      have hf : t.root.Nodes.find? (fun a => decide (key ≤ a.MaxKey)) = none := by
        rw [List.find?_eq_none]
        intro c hc
        have := habove c hc
        simp; omega
      rw [hf] at hd
      rw [Get_eq_of_descend t key t.root hd, if_pos hpos]

/-- Witness of C12 on `tree14`, the tree of height two over the keys 1 to 4, with key 1. -/
theorem Get_correct_on_low_tree_witness :
    WellFormedLow tree14 ∧
    ((∀ x ∈ tree14.root.records, x.Key = 1 → Get tree14 1 = some x.Val) ∧
     ((∀ x ∈ tree14.root.records, x.Key ≠ 1) → Get tree14 1 = some none) ∧
     (tree14.root.Nodes ≠ [] → (∀ c ∈ tree14.root.Nodes, c.MaxKey < 1) →
       Get tree14 1 = some none)) :=
  ⟨by decide, Get_correct_on_low_tree tree14 1 (by decide)⟩

/-! ## Leaf insertion on any leaf -/

theorem scanFrom_some_split (key : Int) (item : BPItem V) (l r : List (BPItem V))
    (h : scanFrom key item l = some r) :
    ∃ p c q, l = p ++ c :: q ∧ (∀ x ∈ p, x.Key < key) ∧ key ≤ c.Key ∧
      r = p ++ (if c.Key = key then item :: q else item :: c :: q) := by
  induction l generalizing r with
  | nil => simp [scanFrom] at h
  | cons a l ih =>
    simp only [scanFrom] at h
    by_cases h1 : a.Key > key
    · rw [if_pos h1] at h
      cases h
      refine ⟨[], a, l, rfl, by simp, by omega, ?_⟩
      have : a.Key ≠ key := by omega
      simp [this]
    · rw [if_neg h1] at h
      by_cases h2 : a.Key = key
      · rw [if_pos h2] at h
        cases h
        exact ⟨[], a, l, rfl, by simp, by omega, by simp [h2]⟩
      · rw [if_neg h2] at h
        cases hsc : scanFrom key item l with
        | none => simp [hsc] at h
        | some r2 =>
          simp [hsc] at h
          obtain ⟨p, c, q, hl, hp, hc, hr⟩ := ih r2 hsc
          refine ⟨a :: p, c, q, by simp [hl], ?_, hc, by simp [← h, hr]⟩
          intro x hx
          rcases List.mem_cons.mp hx with rfl | hx
          · omega
          · exact hp x hx

/-- C15: on every node, whatever its records, `setValue(k, v)` returns without a panic, the
records it leaves contain `(k, v)`, and they are the old records with `(k, v)` appended, or
put in front, or, from the scanning loop, put at the first index `j` whose key is at least
`k`: in place of the record there when its key is `k`, before it otherwise.  The loop thus
returns at an index below the number of records and never falls through. -/
theorem setValue_returns_from_a_branch (node : BPNode V) (k : Int) (v : Iface V) :
    ∃ node', setValue node k v = some node' ∧
      (⟨k, v⟩ : BPItem V) ∈ node'.Items ∧
      (node'.Items = node.Items ++ [⟨k, v⟩] ∨
       node'.Items = ⟨k, v⟩ :: node.Items ∨
       ∃ (j : Nat) (c : BPItem V), node.Items[j]? = some c ∧ k ≤ c.Key ∧
         (∀ (i : Nat) (x : BPItem V), i < j → node.Items[i]? = some x → x.Key < k) ∧
         node'.Items = if c.Key = k then node.Items.set j ⟨k, v⟩
                       else node.Items.take j ++ ⟨k, v⟩ :: node.Items.drop j) := by
  refine ⟨_, setValue_cases node k v, ?_⟩
  cases hl : node.Items with
  | nil => simp
  | cons x xs =>
    have hlast2 : (x :: xs).getLast? = some ((x :: xs).getLast (by simp)) :=
      List.getLast?_eq_getLast _ _
    have hhead : (x :: xs).head? = some x := rfl
    have hmem : (x :: xs).getLast (by simp) ∈ x :: xs := List.getLast_mem _
    simp only [hhead, hlast2]
    by_cases h1 : k < x.Key
    · rw [if_pos h1]
      exact ⟨by simp, Or.inr (Or.inl rfl)⟩
    · rw [if_neg h1]
      by_cases h2 : k > ((x :: xs).getLast (by simp)).Key
      · rw [if_pos h2]
        exact ⟨by simp, Or.inl rfl⟩
      · rw [if_neg h2]
        cases hsc : scanFrom k ⟨k, v⟩ (x :: xs) with
        | none =>
          have := scanFrom_none _ _ _ hsc _ hmem
          omega
        | some r =>
          obtain ⟨p, c, q, hpq, hp, hc, hr⟩ := scanFrom_some_split k ⟨k, v⟩ (x :: xs) r hsc
          have hget : (x :: xs)[p.length]? = some c := by
            rw [hpq, List.getElem?_append_right (le_refl _)]; simp
          have hr' : (⟨k, v⟩ : BPItem V) ∈ r := by
            rw [hr]; by_cases hck : c.Key = k <;> simp [hck]
          refine ⟨hr', Or.inr (Or.inr ⟨p.length, c, hget, hc, ?_, ?_⟩)⟩
          · intro i y hi hy
            rw [hpq, List.getElem?_append_left hi] at hy
            exact hp y (List.getElem?_mem hy)
          · show r = _
            rw [hr, hpq]
            by_cases hck : c.Key = k
            · rw [if_pos hck, if_pos hck, List.set_append_right _ _ (le_refl _)]
              simp
            · rw [if_neg hck, if_neg hck, List.take_left, List.drop_left]

/-! ## Order of two insertions -/

theorem insertOrOverwrite_comm_of_lt (l : List (BPItem V)) (k1 k2 : Int) (v1 v2 : Iface V)
    (h : k1 < k2) :
    insertOrOverwrite (insertOrOverwrite l k1 v1) k2 v2
      = insertOrOverwrite (insertOrOverwrite l k2 v2) k1 v1 := by
  have h21 : ¬ k2 < k1 := by omega
  have hkk1 : ¬ k1 < k1 := by omega
  have hkk2 : ¬ k2 < k2 := by omega
  have e1 : l.filter (fun x => decide (x.Key < k2) && decide (x.Key < k1))
      = l.filter (fun x => decide (x.Key < k1)) := by
    apply List.filter_congr
    intro x _
    by_cases hx : x.Key < k1
    · have : x.Key < k2 := by omega
      simp [hx, this]
    · simp [hx]
  have e2 : l.filter (fun x => decide (k1 < x.Key) && decide (k2 < x.Key))
      = l.filter (fun x => decide (k2 < x.Key)) := by
    apply List.filter_congr
    intro x _
    by_cases hx : k2 < x.Key
    · have : k1 < x.Key := by omega
      simp [hx, this]
    · simp [hx]
  have e1' : l.filter (fun x => decide (x.Key < k1) && decide (x.Key < k2))
      = l.filter (fun x => decide (x.Key < k1)) := by
    apply List.filter_congr
    intro x _
    by_cases hx : x.Key < k1
    · have : x.Key < k2 := by omega
      simp [hx, this]
    · simp [hx]
  have e2' : l.filter (fun x => decide (k2 < x.Key) && decide (k1 < x.Key))
      = l.filter (fun x => decide (k2 < x.Key)) := by
    apply List.filter_congr
    intro x _
    by_cases hx : k2 < x.Key
    · have : k1 < x.Key := by omega
      simp [hx, this]
    · simp [hx]
  have e3 : l.filter (fun x => decide (k2 < x.Key) && decide (x.Key < k1)) = [] := by
    rw [List.filter_eq_nil_iff]
    intro x _
    simp; omega
  have e4 : l.filter (fun x => decide (x.Key < k1) && decide (k2 < x.Key)) = [] := by
    rw [List.filter_eq_nil_iff]
    intro x _
    simp; omega
  have e5 : l.filter (fun x => decide (k1 < x.Key) && decide (x.Key < k2))
      = l.filter (fun x => decide (x.Key < k2) && decide (k1 < x.Key)) := by
    apply List.filter_congr
    intro x _
    exact Bool.and_comm _ _
  simp only [insertOrOverwrite, List.filter_append, List.filter_filter, List.filter_cons,
    List.filter_nil, h, h21, hkk1, hkk2, decide_True, decide_False, if_true,
    Bool.false_eq_true, if_false, e1, e2, e1', e2', e3, e4, e5, List.append_nil, List.nil_append,
    List.append_assoc]

theorem forall_lt_insertOrOverwrite (l : List (BPItem V)) (k k' : Int) (v : Iface V) :
    (∀ x ∈ insertOrOverwrite l k v, x.Key < k') ↔ (k < k' ∧ ∀ x ∈ l, x.Key < k') := by
  constructor
  · intro h
    have hk : k < k' := h ⟨k, v⟩ (by simp [insertOrOverwrite])
    refine ⟨hk, ?_⟩
    intro x hx
    rcases Int.lt_trichotomy x.Key k with hlt | heq | hgt
    · omega
    · omega
    · exact h x (by simp [insertOrOverwrite, hx, hgt])
  · rintro ⟨hk, h⟩ x hx
    simp only [insertOrOverwrite, List.mem_append, List.mem_filter, List.mem_singleton] at hx
    rcases hx with (hx | hx) | hx
    · exact h x hx.1
    · rw [hx]; exact hk
    · exact h x hx.1

/-- C16: on every node whose records are strictly ascending by key and for two distinct
keys, `setValue(k1, v1)` followed by `setValue(k2, v2)` and `setValue(k2, v2)` followed by
`setValue(k1, v1)` both return, and they leave the same node: the same records and the same
`MaxKey`. -/
theorem setValue_order_irrelevant (node : BPNode V) (k1 k2 : Int) (v1 v2 : Iface V)
    (hs : Ascending node.Items) (hne : k1 ≠ k2) :
    ∃ a b n, setValue node k1 v1 = some a ∧ setValue a k2 v2 = some n ∧
      setValue node k2 v2 = some b ∧ setValue b k1 v1 = some n := by
  have ha := setValue_sorted node k1 v1 hs
  have hb := setValue_sorted node k2 v2 hs
  have hsa := ascending_insertOrOverwrite node.Items k1 v1 hs
  have hsb := ascending_insertOrOverwrite node.Items k2 v2 hs
  have han := setValue_sorted
    { node with
      Items := insertOrOverwrite node.Items k1 v1,
      MaxKey := if ∀ x ∈ node.Items, x.Key < k1 then k1 else node.MaxKey } k2 v2 hsa
  have hbn := setValue_sorted
    { node with
      Items := insertOrOverwrite node.Items k2 v2,
      MaxKey := if ∀ x ∈ node.Items, x.Key < k2 then k2 else node.MaxKey } k1 v1 hsb
  refine ⟨_, _, _, ha, han, hb, ?_⟩
  rw [hbn]
  have hitems : insertOrOverwrite (insertOrOverwrite node.Items k2 v2) k1 v1
      = insertOrOverwrite (insertOrOverwrite node.Items k1 v1) k2 v2 := by
    rcases lt_or_gt_of_ne hne with hlt | hgt
    · exact (insertOrOverwrite_comm_of_lt node.Items k1 k2 v1 v2 hlt).symm
    · exact insertOrOverwrite_comm_of_lt node.Items k2 k1 v2 v1 hgt
  have hmax : (if ∀ x ∈ insertOrOverwrite node.Items k2 v2, x.Key < k1 then k1
        else if ∀ x ∈ node.Items, x.Key < k2 then k2 else node.MaxKey)
      = (if ∀ x ∈ insertOrOverwrite node.Items k1 v1, x.Key < k2 then k2
        else if ∀ x ∈ node.Items, x.Key < k1 then k1 else node.MaxKey) := by
    simp only [forall_lt_insertOrOverwrite]
    have m12 : k1 < k2 → (∀ x ∈ node.Items, x.Key < k1) → ∀ x ∈ node.Items, x.Key < k2 :=
      fun hk h x hx => by have := h x hx; omega
    have m21 : k2 < k1 → (∀ x ∈ node.Items, x.Key < k2) → ∀ x ∈ node.Items, x.Key < k1 :=
      fun hk h x hx => by have := h x hx; omega
    have key : ∀ (G1 G2 : Prop) [Decidable G1] [Decidable G2],
        (k1 < k2 → G1 → G2) → (k2 < k1 → G2 → G1) →
        (if k2 < k1 ∧ G1 then k1 else if G2 then k2 else node.MaxKey)
          = (if k1 < k2 ∧ G2 then k2 else if G1 then k1 else node.MaxKey) := by
      intro G1 G2 _ _ n12 n21
      rcases lt_or_gt_of_ne hne with hlt | hgt
      · have h1 : ¬ k2 < k1 := by omega
        by_cases g1 : G1
        · have g2 : G2 := n12 hlt g1
          simp [g1, g2, hlt, h1]
        · by_cases g2 : G2 <;> simp [g1, g2, hlt, h1]
      · have h1 : ¬ k1 < k2 := by omega
        by_cases g2 : G2
        · have g1 : G1 := n21 hgt g2
          simp [g1, g2, hgt, h1]
        · by_cases g1 : G1 <;> simp [g1, g2, hgt, h1]
    exact key _ _ m12 m21
  simp only [hitems, hmax]

/-- Witness of C16 on `leaf34` with the keys 9 and 1. -/
theorem setValue_order_irrelevant_witness :
    (Ascending leaf34.Items ∧ (9 : Int) ≠ 1) ∧
    ∃ a b n, setValue leaf34 9 (some 90) = some a ∧ setValue a 1 (some 10) = some n ∧
      setValue leaf34 1 (some 10) = some b ∧ setValue b 9 (some 90) = some n :=
  ⟨⟨by decide, by decide⟩,
    setValue_order_irrelevant leaf34 9 1 (some 90) (some 10) (by decide) (by decide)⟩

end BPlusTree

namespace Andrew

/-! ## Lemmas on the index primitives -/

theorem idx_ok {α : Type} (s : Slice) (l : List α) (i : Int) (h0 : 0 ≤ i)
    (h1 : i < l.length) : ∃ x ∈ l, idx s l i = .ok x := by
  have hlt : i.toNat < l.length := by omega
  refine ⟨l[i.toNat], List.getElem_mem _, ?_⟩
  simp only [idx, if_pos h0, List.getElem?_eq_getElem hlt]

theorem idx_point_ok (p : List Int) (hp : p.length = 2) (i : Int) (h0 : 0 ≤ i) (h1 : i < 2) :
    ∃ x, idx .point p i = .ok x := by
  obtain ⟨x, _, hx⟩ := idx_ok .point p i h0 (by omega)
  exact ⟨x, hx⟩

theorem cross_ok (p q r : List Int) (hp : p.length = 2) (hq : q.length = 2)
    (hr : r.length = 2) : ∃ c, cross p q r = .ok c := by
  obtain ⟨q0, e1⟩ := idx_point_ok q hq 0 (by omega) (by omega)
  obtain ⟨p0, e2⟩ := idx_point_ok p hp 0 (by omega) (by omega)
  obtain ⟨r1, e3⟩ := idx_point_ok r hr 1 (by omega) (by omega)
  obtain ⟨p1, e4⟩ := idx_point_ok p hp 1 (by omega) (by omega)
  obtain ⟨q1, e5⟩ := idx_point_ok q hq 1 (by omega) (by omega)
  obtain ⟨r0, e6⟩ := idx_point_ok r hr 0 (by omega) (by omega)
  simp only [cross, e1, e2, e3, e4, e5, e6, bind, Except.bind, pure, Except.pure]
  exact ⟨_, rfl⟩

theorem crossAtTop_ok (trees : List (List Int)) (hull : List Int) (i : Int)
    (h2 : ∀ p ∈ trees, p.length = 2) (hlen : hull.length > 1)
    (hh : ∀ a ∈ hull, 0 ≤ a ∧ a < trees.length) (hi : 0 ≤ i ∧ i < trees.length) :
    ∃ c, crossAtTop trees hull i = .ok c := by
  obtain ⟨a, ha, e1⟩ := idx_ok .hull hull ((hull.length : Int) - 2) (by omega) (by omega)
  obtain ⟨p, hp, e2⟩ := idx_ok .trees trees a (hh a ha).1 (hh a ha).2
  obtain ⟨b, hb, e3⟩ := idx_ok .hull hull ((hull.length : Int) - 1) (by omega) (by omega)
  obtain ⟨q, hq, e4⟩ := idx_ok .trees trees b (hh b hb).1 (hh b hb).2
  obtain ⟨r, hr, e5⟩ := idx_ok .trees trees i hi.1 hi.2
  obtain ⟨c, e6⟩ := cross_ok p q r (h2 p hp) (h2 q hq) (h2 r hr)
  refine ⟨c, ?_⟩
  simp only [crossAtTop, e1, e2, e3, e4, e5, e6, bind, Except.bind]

theorem setUsed_ok {n : Nat} (used : Fin n → Bool) (k : Int) (b : Bool)
    (h0 : 0 ≤ k) (h1 : k < n) :
    ∃ used1, setUsed used k b = .ok used1 ∧ getUsed used1 k = .ok b := by
  refine ⟨_, dif_pos ⟨h0, h1⟩, ?_⟩
  simp only [getUsed, dif_pos (And.intro h0 h1), Function.update_same]

theorem getUsed_past_end {n : Nat} (used : Fin n → Bool) :
    getUsed used n = .error (.index .used n n) := by
  simp [getUsed]

theorem sliceTo_last_ok {α : Type} (s : Slice) (l : List α) (h : l ≠ []) :
    sliceTo s l ((l.length : Int) - 1) = .ok l.dropLast := by
  have hpos : 0 < l.length := List.length_pos.mpr h
  have hc : 0 ≤ (l.length : Int) - 1 ∧ (l.length : Int) - 1 ≤ l.length := by omega
  have ht : ((l.length : Int) - 1).toNat = l.length - 1 := by omega
  simp only [sliceTo, if_pos hc, ht, List.dropLast_eq_take]

/-! ## The first pass does not panic -/

theorem pop1_ok {n : Nat} (trees : List (List Int)) (i : Int)
    (h2 : ∀ p ∈ trees, p.length = 2) (hn : trees.length = n) (hi : 0 ≤ i ∧ i < n) :
    ∀ (k : Nat) (used : Fin n → Bool) (hull : List Int), hull.length = k → hull ≠ [] →
      (∀ a ∈ hull, 0 ≤ a ∧ a < i) → (hull.length : Int) ≤ i →
      ∃ used1 hull1, pop1 trees i used hull = .ok (used1, hull1) ∧ hull1 ≠ [] ∧
        (∀ a ∈ hull1, 0 ≤ a ∧ a < i) ∧ (hull1.length : Int) ≤ i := by
  intro k
  induction k using Nat.strong_induction_on with
  | _ k ih =>
    intro used hull hk hne hh hl
    rw [pop1]
    by_cases hlen : hull.length > 1
    · rw [if_pos hlen]
      obtain ⟨c, ec⟩ := crossAtTop_ok trees hull i h2 hlen
        (fun a ha => ⟨(hh a ha).1, by have := (hh a ha).2; omega⟩) ⟨hi.1, by omega⟩
      obtain ⟨used1, eu, _⟩ := setUsed_ok used ((hull.length : Int) - 1) false
        (by omega) (by omega)
      have es := sliceTo_last_ok .hull hull hne
      have hrec := ih (hull.length - 1) (by omega) used1 hull.dropLast (by simp)
        (by
          intro he
          have := congrArg List.length he
          simp at this; omega)
        (fun a ha => hh a (List.dropLast_subset hull ha))
        (by simp; omega)
      simp only [ec, eu]
      by_cases hc : c < 0
      · rw [if_pos hc]
        split
        · rename_i e h
          rw [es] at h; cases h
        · rename_i hull1 h
          rw [es] at h
          cases h
          exact hrec
      · rw [if_neg hc]
        exact ⟨used, hull, rfl, hne, hh, hl⟩
    · rw [if_neg hlen]
      exact ⟨used, hull, rfl, hne, hh, hl⟩

theorem pass1_ok {n : Nat} (trees : List (List Int))
    (h2 : ∀ p ∈ trees, p.length = 2) (hn : trees.length = n) :
    ∀ (k : Nat) (i : Int) (used : Fin n → Bool) (hull : List Int),
      ((n : Int) - i).toNat = k → 1 ≤ i → hull ≠ [] →
      (∀ a ∈ hull, 0 ≤ a ∧ a < i) → (hull.length : Int) ≤ i →
      ∃ used1 hull1, pass1 trees i used hull = .ok (used1, hull1) ∧
        (i < n → getUsed used1 ((n : Int) - 1) = .ok true) ∧
        (¬ i < n → used1 = used ∧ hull1 = hull) := by
  intro k
  induction k using Nat.strong_induction_on with
  | _ k ih =>
    intro i used hull hk h1 hne hh hl
    rw [pass1]
    by_cases hi : i < n
    · rw [if_pos hi]
      obtain ⟨used1, hull1, e1, hne1, hh1, hl1⟩ :=
        pop1_ok trees i h2 hn ⟨by omega, hi⟩ hull.length used hull rfl hne hh hl
      obtain ⟨used2, e2, hg2⟩ := setUsed_ok used1 i true (by omega) hi
      obtain ⟨used3, hull3, e3, hlt3, hge3⟩ :=
        ih (((n : Int) - (i + 1)).toNat) (by omega) (i + 1) used2 (hull1 ++ [i]) rfl
          (by omega) (by simp)
          (by
            intro a ha
            rcases List.mem_append.mp ha with ha | ha
            · have := hh1 a ha; omega
            · simp at ha; omega)
          (by simp; omega)
      simp only [e1, e2, e3]
      refine ⟨used3, hull3, rfl, ?_, fun h => absurd hi h⟩
      intro _
      by_cases hi2 : i + 1 < n
      · exact hlt3 hi2
      · obtain ⟨hu, _⟩ := hge3 hi2
        have hin : (n : Int) - 1 = i := by omega
        rw [hu, hin]
        exact hg2
    · rw [if_neg hi]
      exact ⟨used, hull, rfl, fun h => absurd h hi, fun _ => ⟨rfl, rfl⟩⟩

/-! ## The second pass -/

theorem pass2_panics_of_used_last {n : Nat} (trees : List (List Int)) (m : Nat)
    (used : Fin n → Bool) (hull : List Int) (hn : 1 ≤ n)
    (hu : getUsed used ((n : Int) - 1) = .ok true) :
    pass2 trees m ((n : Int) - 1) used hull = .error (.index .used n n) := by
  rw [pass2, if_pos (by omega)]
  split
  · rename_i e h
    rw [hu] at h; cases h
  · rename_i u h
    rw [hu] at h
    cases h
    simp only [Bool.not_true, Bool.false_eq_true, if_false]
    have hn1 : (n : Int) - 1 + 1 = n := by omega
    rw [hn1, pass2, if_pos (by omega)]
    split
    · rename_i e h
      rw [getUsed_past_end] at h
      cases h
      rfl
    · rename_i u h
      rw [getUsed_past_end] at h
      cases h

theorem pass2_panics_single (trees : List (List Int)) :
    pass2 (n := 1) trees 1 0 (fun _ => false) [0] = .error (.index .used 1 1) := by
  have hg : getUsed (n := 1) (fun _ => false) 0 = .ok false := by
    simp [getUsed]
  have hp : pop2 (n := 1) trees 1 0 (fun _ => false) [0] = .ok (fun _ => false, [0]) := by
    rw [pop2, if_neg (by simp)]
  obtain ⟨used2, e2, _⟩ := setUsed_ok (n := 1) (fun _ => false) 0 true (by omega) (by omega)
  have hidx : idx .hull ([0] : List Int) (([0] : List Int).length - 1 : Int) = .ok 0 := by
    simp [idx]
  rw [pass2, if_pos (by omega)]
  split
  · rename_i e h
    rw [hg] at h; cases h
  · rename_i u h
    rw [hg] at h
    cases h
    simp only [Bool.not_false, if_true, hp, hidx, e2]
    rw [pass2, if_pos (by omega)]
    have hpe := getUsed_past_end (n := 1) used2
    split
    · rename_i e h
      rw [show ((0 : Int) + 1) = ((1 : Nat) : Int) from rfl, hpe] at h
      cases h
      rfl
    · rename_i u h
      rw [show ((0 : Int) + 1) = ((1 : Nat) : Int) from rfl, hpe] at h
      cases h

theorem pass2_panics_of_one {n : Nat} (trees : List (List Int)) (hn : n = 1) :
    pass2 (n := n) trees 1 ((n : Int) - 1) (fun _ => false) [0]
      = .error (.index .used n n) := by
  subst hn
  exact pass2_panics_single trees

/-! ## `outerTrees` -/

theorem outerTrees_of_empty
    (sortSlice : (List Int → List Int → Except Panic Bool) → List (List Int) →
      Except Panic (List (List Int)))
    (hs : sortSlice less [] = .ok []) :
    outerTrees sortSlice [] = .ok [] := by
  have h1 : pass1 (n := 0) [] 1 (fun _ => false) [0] = .ok (fun _ => false, [0]) := by
    rw [pass1, if_neg (by simp)]
  have h2 : pass2 (n := 0) [] ([0] : List Int).length (((0 : Nat) : Int) - 1)
      (fun _ => false) [0] = .ok [0] := by
    rw [pass2, if_neg (by simp)]
  have h3 : sliceTo .hull ([0] : List Int) ((([0] : List Int).length : Int) - 1) = .ok [] := by
    simp [sliceTo]
  simp only [outerTrees, hs, List.length_nil, h1, h2, h3]
  rfl

theorem outerTrees_of_nonempty
    (sortSlice : (List Int → List Int → Except Panic Bool) → List (List Int) →
      Except Panic (List (List Int)))
    (trees sorted : List (List Int)) (h2 : ∀ p ∈ trees, p.length = 2)
    (hs : sortSlice less trees = .ok sorted) (hp : sorted.Perm trees) (hne : trees ≠ []) :
    outerTrees sortSlice trees = .error (.index .used trees.length trees.length) := by
  have hpos : 1 ≤ trees.length := List.length_pos.mpr hne
  have h2s : ∀ p ∈ sorted, p.length = 2 := fun p hp' => h2 p (hp.mem_iff.mp hp')
  obtain ⟨used1, hull1, e1, hlt, hge⟩ :=
    pass1_ok (n := trees.length) sorted h2s hp.length_eq _ 1 (fun _ => false) [0] rfl
      (by omega) (by simp) (by intro a ha; simp at ha; omega) (by simp)
  simp only [outerTrees, hs, e1]
  by_cases h1 : (1 : Int) < trees.length
  · rw [pass2_panics_of_used_last sorted hull1.length used1 hull1 hpos (hlt h1)]
  · obtain ⟨hu, hh⟩ := hge h1
    rw [hu, hh]
    rw [show ([0] : List Int).length = 1 from rfl,
      pass2_panics_of_one sorted (by omega)]

/-- C13, at the failing input: on the single point `[[0,0]]` the call does not return the
hull `[[0,0]]`; it panics in the second pass, whose counter goes from 0 up to 1 and indexes
`used`, of length 1, at 1. -/
theorem outerTrees_single_point_panics :
    outerTrees insertionSort [[0, 0]] = .error (.index .used 1 1) ∧
    outerTrees insertionSort [[0, 0]] ≠ .ok [[0, 0]] := by
  have h := outerTrees_of_nonempty insertionSort [[0, 0]] [[0, 0]] (by decide) rfl
    (List.Perm.refl _) (by decide)
  refine ⟨h, ?_⟩
  rw [h]
  intro hc
  cases hc

/-- C18: for every list of points of two coordinates each, sorted by a `sort.Slice` that
returns a permutation of it, `outerTrees` returns exactly when the list is empty: on the
empty list it returns the empty list, and on a list of `n ≥ 1` points it panics on the index
expression `used[n]`, `used` having length `n`. -/
theorem outerTrees_returns_iff_empty
    (sortSlice : (List Int → List Int → Except Panic Bool) → List (List Int) →
      Except Panic (List (List Int)))
    (trees sorted : List (List Int)) (h2 : ∀ p ∈ trees, p.length = 2)
    (hs : sortSlice less trees = .ok sorted) (hp : sorted.Perm trees) :
    ((∃ r, outerTrees sortSlice trees = .ok r) ↔ trees = []) ∧
    (trees = [] → outerTrees sortSlice trees = .ok []) ∧
    (trees ≠ [] →
      outerTrees sortSlice trees = .error (.index .used trees.length trees.length)) := by
  have hemp : trees = [] → outerTrees sortSlice trees = .ok [] := by
    intro he
    subst he
    have : sorted = [] := List.Perm.eq_nil hp
    subst this
    exact outerTrees_of_empty sortSlice hs
  have hnon := outerTrees_of_nonempty sortSlice trees sorted h2 hs hp
  refine ⟨⟨?_, fun he => ⟨[], hemp he⟩⟩, hemp, hnon⟩
  rintro ⟨r, hr⟩
  by_contra hne
  rw [hnon hne] at hr
  cases hr

/-- Witness of C18 on three points, sorted by insertion sort. -/
theorem outerTrees_returns_iff_empty_witness :
    ((∀ p ∈ [[1, 1], [0, 0], [2, 0]], p.length = 2) ∧
      insertionSort less [[1, 1], [0, 0], [2, 0]] = .ok [[0, 0], [1, 1], [2, 0]] ∧
      ([[0, 0], [1, 1], [2, 0]] : List (List Int)).Perm [[1, 1], [0, 0], [2, 0]]) ∧
    (((∃ r, outerTrees insertionSort [[1, 1], [0, 0], [2, 0]] = .ok r) ↔
        ([[1, 1], [0, 0], [2, 0]] : List (List Int)) = []) ∧
      (([[1, 1], [0, 0], [2, 0]] : List (List Int)) = [] →
        outerTrees insertionSort [[1, 1], [0, 0], [2, 0]] = .ok []) ∧
      (([[1, 1], [0, 0], [2, 0]] : List (List Int)) ≠ [] →
        outerTrees insertionSort [[1, 1], [0, 0], [2, 0]]
          = .error (.index .used
              ([[1, 1], [0, 0], [2, 0]] : List (List Int)).length
              ([[1, 1], [0, 0], [2, 0]] : List (List Int)).length))) :=
  ⟨⟨by decide, rfl, by decide⟩,
    outerTrees_returns_iff_empty insertionSort [[1, 1], [0, 0], [2, 0]]
      [[0, 0], [1, 1], [2, 0]] (by decide) rfl (by decide)⟩

end Andrew
